import Mathlib

/-!
# Tape-based reverse-mode automatic differentiation (`reverse.h`)

A shallow embedding of `src/reverse.h`.

Modelling conventions.

* `float` is modelled by an arbitrary linearly ordered field `F` (exact arithmetic: rounding,
  infinities and NaN are outside the model).  The functions of `<math.h>` that the program
  calls (`powf`, `expf`, `cosf`, `sinf`, `sqrtf`, `logf`) are fields of the record `libc`,
  together with the content `fresh` of memory that `realloc` hands out uninitialised.
* The quotient of a float by zero (an infinity or a NaN) is not the `x / 0 = 0` of the
  field.  The program inspects such a quotient in one place, the `assert` of `operator/`,
  which reads the recorded quotient back; there the quotient by zero is the field `div_zero`
  of `libc`.  Elsewhere the quotients are written with the division of the field.
* A `tape_t` is a C struct of two `uint32_t` and a pointer.  The model keeps the two integers
  as `Nat` and replaces the pointer by the content of the block it points to (a `List`).
  A read outside the block yields the all-zero entry and a write outside the block is
  dropped; both are undefined behaviour in C.
* `assert` failures are `none`.  `calloc` and `realloc` are assumed to succeed, a request of
  zero bytes included: `realloc(p, 0)`, which `tape_extend` issues when
  `length = capacity = 0`, is taken to return an empty block.  C leaves that result to the
  implementation; where it is `NULL` (glibc) the program exits inside `tape_extend` and no
  state follows the call.
* The header passes `tape_t` **by value** everywhere.  A callee that assigns to the fields
  `length`, `capacity` of its parameter changes its own copy only; what it writes through
  `entries` is seen by every holder of the pointer.  Each function below returns the block
  as the callee leaves it, and the callers keep or drop the integer fields exactly as the
  C++ call does.
-/

namespace Reverse

/-- The constant `MAX_TAPE_LENGTH = 1 << 24` of reverse.h. -/
def MAX_TAPE_LENGTH : Nat := 16777216

/-- Range of `uint32_t`. -/
def UINT32_RANGE : Nat := 4294967296

/-- The enum `operator_t`. -/
inductive operator_t where
  | NIL | NEG | ADD | SUB | MUL | DIV | POW | EXP | COS | SIN | SQRT
  deriving DecidableEq

/-- The struct `tape_entry_t`. -/
structure tape_entry_t (F : Type) where
  value : F
  adjoint : F
  left_parent : Nat
  right_parent : Nat
  op : operator_t
  deriving DecidableEq

/-- The struct `tape_t`; `entries` is the content of the block the pointer designates. -/
structure tape_t (F : Type) where
  length : Nat
  capacity : Nat
  entries : List (tape_entry_t F)
  deriving DecidableEq

/-- The struct `var_t`. -/
structure var_t where
  index : Nat
  deriving DecidableEq

/-- What the program takes from its platform: the `<math.h>` functions it calls, the content
of the entries that `realloc` returns uninitialised, and the float quotient `x / 0`. -/
structure libc (F : Type) where
  powf : F → F → F
  expf : F → F
  cosf : F → F
  sinf : F → F
  sqrtf : F → F
  logf : F → F
  fresh : tape_entry_t F
  div_zero : F → F

variable {F : Type} [LinearOrderedField F]

/-- An entry whose bytes are all zero, as written by `calloc` and `memset(.., 0, ..)`. -/
def tape_entry_zero : tape_entry_t F :=
  { value := 0, adjoint := 0, left_parent := 0, right_parent := 0, op := operator_t.NIL }

/-- The read `entries[i]`. -/
def entry_at (es : List (tape_entry_t F)) (i : Nat) : tape_entry_t F :=
  es.getD i tape_entry_zero

/-- Operators that read `right_parent_entry` in the backward sweep. -/
def operator_t.is_binary : operator_t → Bool
  | operator_t.ADD => true
  | operator_t.SUB => true
  | operator_t.MUL => true
  | operator_t.DIV => true
  | operator_t.POW => true
  | _ => false

/-- The function `tape_create`: `assert(capacity <= MAX_TAPE_LENGTH)`, then `calloc`. -/
def tape_create (capacity : Nat) : Option (tape_t F) :=
  if capacity ≤ MAX_TAPE_LENGTH then
    some { length := 0, capacity := capacity, entries := List.replicate capacity tape_entry_zero }
  else none

/-- The call `realloc(p, n * sizeof(tape_entry_t))` when it returns a block: the first
entries are kept, the block is cut or extended to `n` entries, the new ones being
uninitialised.  For `n = 0` the block returned is empty (an implementation may return `NULL`
instead, on which the caller exits). -/
def realloc (lc : libc F) (es : List (tape_entry_t F)) (n : Nat) : List (tape_entry_t F) :=
  es.take n ++ List.replicate (n - es.length) lc.fresh

/-- The call `memset(entries + off, 0, n * sizeof(tape_entry_t))`. -/
def memset_zero : List (tape_entry_t F) → Nat → Nat → List (tape_entry_t F)
  | [], _, _ => []
  | e :: es, 0, 0 => e :: es
  | _ :: es, 0, n + 1 => tape_entry_zero :: memset_zero es 0 n
  | e :: es, off + 1, n => e :: memset_zero es off n

/-- The function `tape_extend`, on its own parameter: the result is the callee's struct when
the function returns (`length`, `capacity`) and the block as it leaves it.  `realloc` is taken
to return a block; for `length = capacity = 0` the request is of zero bytes. -/
def tape_extend (lc : libc F) (tape : tape_t F) : Option (tape_t F) :=
  if tape.length < MAX_TAPE_LENGTH then
    if tape.length = tape.capacity then
      some { length := tape.length + 1,
             capacity := (2 * tape.capacity) % UINT32_RANGE,
             entries := memset_zero (realloc lc tape.entries ((2 * tape.capacity) % UINT32_RANGE))
                          tape.capacity tape.capacity }
    else some { tape with length := tape.length + 1 }
  else none

/-- The statement `p->adjoint += d` for `p = &entries[j]`. -/
def add_adjoint (es : List (tape_entry_t F)) (j : Nat) (d : F) : List (tape_entry_t F) :=
  es.set j { entry_at es j with adjoint := (entry_at es j).adjoint + d }

/-- The statement `p->adjoint = d` for `p = &entries[j]`. -/
def set_adjoint (es : List (tape_entry_t F)) (j : Nat) (d : F) : List (tape_entry_t F) :=
  es.set j { entry_at es j with adjoint := d }

/-- The first loop of `tape_reverse_pass`: `entries[i].adjoint = 0` for `i < n`. -/
def zero_adjoints : Nat → List (tape_entry_t F) → List (tape_entry_t F)
  | 0, es => es
  | _ + 1, [] => []
  | n + 1, e :: es => { e with adjoint := 0 } :: zero_adjoints n es

/-- The body of the second loop of `tape_reverse_pass` at index `i`.  The three pointers
`entry`, `left_parent_entry`, `right_parent_entry` may alias, so every read is made in the
block as the preceding statement left it. -/
def sweep_step (lc : libc F) (es : List (tape_entry_t F)) (i : Nat) : List (tape_entry_t F) :=
  let l := (entry_at es i).left_parent
  let r := (entry_at es i).right_parent
  match (entry_at es i).op with
  | operator_t.NIL => es
  | operator_t.NEG => add_adjoint es l ((entry_at es i).adjoint * -1)
  | operator_t.ADD =>
      let es1 := add_adjoint es l ((entry_at es i).adjoint * 1)
      add_adjoint es1 r ((entry_at es1 i).adjoint * 1)
  | operator_t.SUB =>
      let es1 := add_adjoint es l ((entry_at es i).adjoint * 1)
      add_adjoint es1 r ((entry_at es1 i).adjoint * -1)
  | operator_t.MUL =>
      let es1 := add_adjoint es l ((entry_at es i).adjoint * (entry_at es r).value)
      add_adjoint es1 r ((entry_at es1 i).adjoint * (entry_at es1 l).value)
  | operator_t.DIV =>
      let es1 := add_adjoint es l ((entry_at es i).adjoint / (entry_at es r).value)
      add_adjoint es1 r
        ((entry_at es1 i).adjoint * -1 * ((entry_at es1 i).value / (entry_at es1 r).value))
  | operator_t.POW =>
      let es1 := add_adjoint es l
        ((entry_at es i).adjoint * (entry_at es r).value
          * ((entry_at es i).value / (entry_at es l).value))
      add_adjoint es1 r
        ((entry_at es1 i).adjoint * (entry_at es1 i).value * lc.logf (entry_at es1 l).value)
  | operator_t.EXP => add_adjoint es l ((entry_at es i).adjoint * (entry_at es i).value)
  | operator_t.COS =>
      add_adjoint es l
        ((entry_at es i).adjoint * -1
          * lc.sqrtf (1 - (entry_at es i).value * (entry_at es i).value))
  | operator_t.SIN =>
      add_adjoint es l
        ((entry_at es i).adjoint * lc.sqrtf (1 - (entry_at es i).value * (entry_at es i).value))
  | operator_t.SQRT => add_adjoint es l ((entry_at es i).adjoint / (2 * (entry_at es i).value))

/-- The loop `for (size_t i = n; i-- > 0;) body(i)`: the body runs at `n-1, n-2, .., 0`. -/
def sweep (lc : libc F) : Nat → List (tape_entry_t F) → List (tape_entry_t F)
  | 0, es => es
  | i + 1, es => sweep lc i (sweep_step lc es i)

/-- The function `tape_reverse_pass`.  `start.index+1` is computed in `uint32_t`.  The struct
fields are not assigned; the result carries the block as the function leaves it. -/
def tape_reverse_pass (lc : libc F) (tape : tape_t F) (start : var_t) : tape_t F :=
  let es0 := zero_adjoints tape.length tape.entries
  let es1 := set_adjoint es0 start.index 1
  { tape with entries := sweep lc ((start.index + 1) % UINT32_RANGE) es1 }

/-- The function `tape_load`: the assignment `global_tape = tape` (a copy of the struct). -/
def tape_load (tape : tape_t F) : tape_t F := tape

/-- The function `tape_loaded`: a copy of `global_tape`. -/
def tape_loaded (global_tape : tape_t F) : tape_t F := global_tape

/-- The statement `entries[i].value = v`. -/
def set_value (es : List (tape_entry_t F)) (i : Nat) (v : F) : List (tape_entry_t F) :=
  es.set i { entry_at es i with value := v }

/-- The statements `e->op = op; e->left_parent = l;` for `e = &entries[i]`. -/
def set_unary (es : List (tape_entry_t F)) (i : Nat) (op : operator_t) (l : Nat) :
    List (tape_entry_t F) :=
  es.set i { entry_at es i with op := op, left_parent := l }

/-- The statements `e->op = op; e->left_parent = l; e->right_parent = r;` for
`e = &entries[i]`. -/
def set_binary (es : List (tape_entry_t F)) (i : Nat) (op : operator_t) (l r : Nat) :
    List (tape_entry_t F) :=
  es.set i { entry_at es i with op := op, left_parent := l, right_parent := r }

/-- The function `var_create`, as a transition of `global_tape`.  The call
`tape_extend(global_tape)` passes the struct by value: the increment of `length` and the new
`capacity` stay in the callee's copy, so `global_tape` keeps both fields; only what the
callee did to the block is kept (a block that `realloc` grew is taken to be grown in place).
Then `global_tape.entries[a.index].value = value`. -/
def var_create (lc : libc F) (global_tape : tape_t F) (value : F) :
    Option (var_t × tape_t F) :=
  match tape_extend lc global_tape with
  | none => none
  | some t =>
      some (⟨global_tape.length⟩,
        { global_tape with entries := set_value t.entries global_tape.length value })

/-- The function `var_adjoint`. -/
def var_adjoint (global_tape : tape_t F) (a : var_t) : F :=
  (entry_at global_tape.entries a.index).adjoint

/-- The function `var_value`. -/
def var_value (global_tape : tape_t F) (a : var_t) : F :=
  (entry_at global_tape.entries a.index).value

/-- Common shape of the unary recorders: `var_create(v)`, then tag and left parent. -/
def record_unary (lc : libc F) (global_tape : tape_t F) (op : operator_t) (a : var_t) (v : F) :
    Option (var_t × tape_t F) :=
  match var_create lc global_tape v with
  | none => none
  | some (b, g) => some (b, { g with entries := set_unary g.entries b.index op a.index })

/-- Common shape of the binary recorders: `var_create(v)`, then tag and both parents. -/
def record_binary (lc : libc F) (global_tape : tape_t F) (op : operator_t) (a b : var_t)
    (v : F) : Option (var_t × tape_t F) :=
  match var_create lc global_tape v with
  | none => none
  | some (c, g) => some (c, { g with entries := set_binary g.entries c.index op a.index b.index })

/-- The unary `operator-`. -/
def operator_neg (lc : libc F) (global_tape : tape_t F) (a : var_t) : Option (var_t × tape_t F) :=
  record_unary lc global_tape operator_t.NEG a (-(entry_at global_tape.entries a.index).value)

/-- The binary `operator+`. -/
def operator_add (lc : libc F) (global_tape : tape_t F) (a b : var_t) :
    Option (var_t × tape_t F) :=
  record_binary lc global_tape operator_t.ADD a b
    ((entry_at global_tape.entries a.index).value + (entry_at global_tape.entries b.index).value)

/-- The binary `operator-`. -/
def operator_sub (lc : libc F) (global_tape : tape_t F) (a b : var_t) :
    Option (var_t × tape_t F) :=
  record_binary lc global_tape operator_t.SUB a b
    ((entry_at global_tape.entries a.index).value - (entry_at global_tape.entries b.index).value)

/-- The binary `operator*`. -/
def operator_mul (lc : libc F) (global_tape : tape_t F) (a b : var_t) :
    Option (var_t × tape_t F) :=
  record_binary lc global_tape operator_t.MUL a b
    ((entry_at global_tape.entries a.index).value * (entry_at global_tape.entries b.index).value)

/-- The float quotient `x / y`: the quotient of the field for a non-zero divisor, the
quotient by zero of the platform otherwise. -/
def float_div (lc : libc F) (x y : F) : F :=
  if y = 0 then lc.div_zero x else x / y

/-- The binary `operator/`: `var_create` runs first, `assert(b_entry->value != 0)` reads the
block after it. -/
def operator_div (lc : libc F) (global_tape : tape_t F) (a b : var_t) :
    Option (var_t × tape_t F) :=
  match var_create lc global_tape
      (float_div lc (entry_at global_tape.entries a.index).value
        (entry_at global_tape.entries b.index).value) with
  | none => none
  | some (c, g) =>
      if (entry_at g.entries b.index).value ≠ 0 then
        some (c, { g with
          entries := set_binary g.entries c.index operator_t.DIV a.index b.index })
      else none

/-- The function `var_pow`: `assert(a_entry->value > 0)` comes before `var_create`. -/
def var_pow (lc : libc F) (global_tape : tape_t F) (a b : var_t) : Option (var_t × tape_t F) :=
  if 0 < (entry_at global_tape.entries a.index).value then
    record_binary lc global_tape operator_t.POW a b
      (lc.powf (entry_at global_tape.entries a.index).value
        (entry_at global_tape.entries b.index).value)
  else none

/-- The function `var_exp`. -/
def var_exp (lc : libc F) (global_tape : tape_t F) (a : var_t) : Option (var_t × tape_t F) :=
  record_unary lc global_tape operator_t.EXP a
    (lc.expf (entry_at global_tape.entries a.index).value)

/-- The function `var_cos`. -/
def var_cos (lc : libc F) (global_tape : tape_t F) (a : var_t) : Option (var_t × tape_t F) :=
  record_unary lc global_tape operator_t.COS a
    (lc.cosf (entry_at global_tape.entries a.index).value)

/-- The function `var_sin`. -/
def var_sin (lc : libc F) (global_tape : tape_t F) (a : var_t) : Option (var_t × tape_t F) :=
  record_unary lc global_tape operator_t.SIN a
    (lc.sinf (entry_at global_tape.entries a.index).value)

/-- The function `var_sqrt` (its `assert` is commented out in the source). -/
def var_sqrt (lc : libc F) (global_tape : tape_t F) (a : var_t) : Option (var_t × tape_t F) :=
  record_unary lc global_tape operator_t.SQRT a
    (lc.sqrtf (entry_at global_tape.entries a.index).value)

/-- The function `tape_clear`, on its own parameter: `memset` over the first `length` entries
of the block, then `tape.length = 0` in the callee's struct. -/
def tape_clear (tape : tape_t F) : tape_t F :=
  { length := 0, capacity := tape.capacity,
    entries := memset_zero tape.entries 0 tape.length }

/-- The call `tape_clear(tape)` as the caller sees it: the struct is passed by value, so the
caller keeps its fields `length` and `capacity`; the block is the one the callee leaves. -/
def call_tape_clear (tape : tape_t F) : tape_t F :=
  { tape with entries := (tape_clear tape).entries }

/-- The block of the active tape when control leaves `var_pow`, by a return or by a failed
`assert`: the `assert` on the base comes before any write, and the `assert` of `tape_extend`
before any write of `var_create`. -/
def var_pow_exit_block (lc : libc F) (global_tape : tape_t F) (a b : var_t) :
    List (tape_entry_t F) :=
  if 0 < (entry_at global_tape.entries a.index).value then
    match record_binary lc global_tape operator_t.POW a b
        (lc.powf (entry_at global_tape.entries a.index).value
          (entry_at global_tape.entries b.index).value) with
    | none => global_tape.entries
    | some (_, g) => g.entries
  else global_tape.entries

/-! ## Notions used to state the properties -/

/-- Topological order of a tape (§3 of the specification): below `length`, a node that is not
a leaf has its left parent at a smaller index, and a binary node has its right parent at a
smaller index. -/
def tape_ordered (tape : tape_t F) : Prop :=
  ∀ i, i < tape.length →
    ((entry_at tape.entries i).op ≠ operator_t.NIL → (entry_at tape.entries i).left_parent < i)
    ∧ ((entry_at tape.entries i).op.is_binary = true → (entry_at tape.entries i).right_parent < i)

instance (tape : tape_t F) : Decidable (tape_ordered tape) := by
  unfold tape_ordered; infer_instance

/-- The forward value that the recorder of `op` stores for parents of values `l` and `r`
(`operator-`, `operator+`, .., `var_sqrt`); a leaf has no such value. -/
def node_value (lc : libc F) (op : operator_t) (l r : F) : F :=
  match op with
  | operator_t.NIL => 0
  | operator_t.NEG => -l
  | operator_t.ADD => l + r
  | operator_t.SUB => l - r
  | operator_t.MUL => l * r
  | operator_t.DIV => l / r
  | operator_t.POW => lc.powf l r
  | operator_t.EXP => lc.expf l
  | operator_t.COS => lc.cosf l
  | operator_t.SIN => lc.sinf l
  | operator_t.SQRT => lc.sqrtf l

/-- Each recorded value below `length` is the operator applied to the recorded values of the
parents. -/
def tape_consistent (lc : libc F) (tape : tape_t F) : Prop :=
  ∀ i, i < tape.length → (entry_at tape.entries i).op ≠ operator_t.NIL →
    (entry_at tape.entries i).value
      = node_value lc (entry_at tape.entries i).op
          (entry_at tape.entries (entry_at tape.entries i).left_parent).value
          (entry_at tape.entries (entry_at tape.entries i).right_parent).value

/-- The recorded values of the block, as a state of the forward computation. -/
def recorded_values (es : List (tape_entry_t F)) : Nat → F :=
  fun i => (entry_at es i).value

/-- Recomputing node `i` in the state `x`: a leaf keeps its value, another node takes its
operator applied to the current values of its parents. -/
def recompute (lc : libc F) (es : List (tape_entry_t F)) (i : Nat) (x : Nat → F) : Nat → F :=
  if (entry_at es i).op = operator_t.NIL then x
  else Function.update x i
    (node_value lc (entry_at es i).op (x (entry_at es i).left_parent)
      (x (entry_at es i).right_parent))

/-- Recomputing the nodes `a, a+1, .., a+n-1` in this order. -/
def recompute_range (lc : libc F) (es : List (tape_entry_t F)) :
    Nat → Nat → (Nat → F) → Nat → F
  | _, 0, x => x
  | a, n + 1, x => recompute_range lc es (a + 1) n (recompute lc es a x)

/-- The value at `start` as a function of the value `v` of node `k`: node `k` is given the
value `v`, the nodes `k+1, .., start.index` are recomputed in index order, every other node
keeps its recorded value.  Its derivative at the recorded value of node `k` is the partial
derivative of the value at `start` with respect to the value of node `k`. -/
def value_at_start (lc : libc F) (tape : tape_t F) (start : var_t) (k : Nat) (v : F) : F :=
  recompute_range lc tape.entries (k + 1) (start.index - k)
    (Function.update (recorded_values tape.entries) k v) start.index

/-- The C library computes the real functions. -/
def libc_exact (lc : libc ℝ) : Prop :=
  lc.powf = Real.rpow ∧ lc.expf = Real.exp ∧ lc.cosf = Real.cos ∧ lc.sinf = Real.sin
    ∧ lc.sqrtf = Real.sqrt ∧ lc.logf = Real.log

/-- The operands of node `i` are inside the domain where the rule of the backward sweep is
the derivative: a non-zero divisor, a positive base of `POW`, a positive operand of `SQRT`,
and for `COS` (`SIN`) an operand whose sine (cosine) is not negative. -/
def node_in_domain (lc : libc F) (es : List (tape_entry_t F)) (i : Nat) : Prop :=
  match (entry_at es i).op with
  | operator_t.DIV => (entry_at es (entry_at es i).right_parent).value ≠ 0
  | operator_t.POW => 0 < (entry_at es (entry_at es i).left_parent).value
  | operator_t.SQRT => 0 < (entry_at es (entry_at es i).left_parent).value
  | operator_t.COS => 0 ≤ lc.sinf (entry_at es (entry_at es i).left_parent).value
  | operator_t.SIN => 0 ≤ lc.cosf (entry_at es (entry_at es i).left_parent).value
  | _ => True

/-- Every node below `length` has its operands inside the domain. -/
def tape_in_domain (lc : libc F) (tape : tape_t F) : Prop :=
  ∀ i, i < tape.length → node_in_domain lc tape.entries i

/-- The column "contribution to L.adjoint" of the table of §4.3 of the specification, for a
node of value `c` and adjoint `a` whose parents have the values `l` and `r`; a dash of the
table is `0`. -/
def spec_left_contribution (lc : libc F) (op : operator_t) (a c l r : F) : F :=
  match op with
  | operator_t.NIL => 0
  | operator_t.NEG => a * -1
  | operator_t.ADD => a
  | operator_t.SUB => a
  | operator_t.MUL => a * r
  | operator_t.DIV => a / r
  | operator_t.POW => a * r * (c / l)
  | operator_t.EXP => a * c
  | operator_t.COS => a * -1 * lc.sqrtf (1 - c ^ 2)
  | operator_t.SIN => a * lc.sqrtf (1 - c ^ 2)
  | operator_t.SQRT => a / (2 * c)

/-- The column "contribution to R.adjoint" of the table of §4.3 of the specification; a dash
of the table is `0`. -/
def spec_right_contribution (lc : libc F) (op : operator_t) (a c l r : F) : F :=
  match op with
  | operator_t.ADD => a
  | operator_t.SUB => a * -1
  | operator_t.MUL => a * l
  | operator_t.DIV => a * -1 * (c / r)
  | operator_t.POW => a * c * lc.logf l
  | _ => 0

/-- The factor of the left contribution of node `i`: the entry of the table for a unit
adjoint, at the recorded values. -/
def local_left (lc : libc F) (es : List (tape_entry_t F)) (i : Nat) : F :=
  spec_left_contribution lc (entry_at es i).op 1 (entry_at es i).value
    (entry_at es (entry_at es i).left_parent).value
    (entry_at es (entry_at es i).right_parent).value

/-- The factor of the right contribution of node `i`. -/
def local_right (lc : libc F) (es : List (tape_entry_t F)) (i : Nat) : F :=
  spec_right_contribution lc (entry_at es i).op 1 (entry_at es i).value
    (entry_at es (entry_at es i).left_parent).value
    (entry_at es (entry_at es i).right_parent).value

/-- Forward propagation of a tangent through node `i`: the tangent of a leaf is kept, the
tangent of another node is the combination of the tangents of its parents. -/
def tangent_step (lc : libc F) (es : List (tape_entry_t F)) (i : Nat) (t : Nat → F) : Nat → F :=
  if (entry_at es i).op = operator_t.NIL then t
  else Function.update t i
    (local_left lc es i * t (entry_at es i).left_parent
      + local_right lc es i * t (entry_at es i).right_parent)

/-- Forward propagation of a tangent through the nodes `a, a+1, .., a+n-1`. -/
def tangent_range (lc : libc F) (es : List (tape_entry_t F)) :
    Nat → Nat → (Nat → F) → Nat → F
  | _, 0, t => t
  | a, n + 1, t => tangent_range lc es (a + 1) n (tangent_step lc es a t)

/-- The unit tangent at node `k`. -/
def unit_tangent (k : Nat) : Nat → F := fun j => if j = k then 1 else 0

/-- Two blocks that agree on every field but the adjoint. -/
def same_fields (es tes : List (tape_entry_t F)) : Prop :=
  es.length = tes.length ∧ ∀ j, (entry_at es j).value = (entry_at tes j).value
    ∧ (entry_at es j).left_parent = (entry_at tes j).left_parent
    ∧ (entry_at es j).right_parent = (entry_at tes j).right_parent
    ∧ (entry_at es j).op = (entry_at tes j).op

/-- One call of the recording interface of reverse.h. -/
inductive recorder_call (F : Type) where
  | create (value : F)
  | neg (a : var_t)
  | add (a b : var_t)
  | sub (a b : var_t)
  | mul (a b : var_t)
  | div (a b : var_t)
  | pow (a b : var_t)
  | exp (a : var_t)
  | cos (a : var_t)
  | sin (a : var_t)
  | sqrt (a : var_t)

/-- The effect of one call on `global_tape`, with the handle it returns. -/
def run_call (lc : libc F) (global_tape : tape_t F) :
    recorder_call F → Option (var_t × tape_t F)
  | recorder_call.create v => var_create lc global_tape v
  | recorder_call.neg a => operator_neg lc global_tape a
  | recorder_call.add a b => operator_add lc global_tape a b
  | recorder_call.sub a b => operator_sub lc global_tape a b
  | recorder_call.mul a b => operator_mul lc global_tape a b
  | recorder_call.div a b => operator_div lc global_tape a b
  | recorder_call.pow a b => var_pow lc global_tape a b
  | recorder_call.exp a => var_exp lc global_tape a
  | recorder_call.cos a => var_cos lc global_tape a
  | recorder_call.sin a => var_sin lc global_tape a
  | recorder_call.sqrt a => var_sqrt lc global_tape a

/-- A sequence of calls in program order: the handles returned and the final `global_tape`;
`none` when an `assert` fails on the way. -/
def run_calls (lc : libc F) : tape_t F → List (recorder_call F) → Option (List var_t × tape_t F)
  | g, [] => some ([], g)
  | g, c :: cs =>
      match run_call lc g c with
      | none => none
      | some (a, g1) =>
          match run_calls lc g1 cs with
          | none => none
          | some (hs, g2) => some (a :: hs, g2)

/-- The block after the first `k` iterations of the second loop of `tape_reverse_pass`,
`for (size_t i = n; i-- > 0;) body(i)`: the body has run at `n-1, .., n-k`. -/
def sweep_iterations (lc : libc F) (n : Nat) : Nat → List (tape_entry_t F) → List (tape_entry_t F)
  | 0, es => es
  | k + 1, es => sweep_step lc (sweep_iterations lc n k es) (n - 1 - k)

/-- What the table of §4.3 of the specification has node `i` contribute to the adjoint of
node `j`, through each parent slot of `i` that refers to `j`, computed from the adjoint and
the values found in the block `es`. -/
def table_contribution (lc : libc F) (es : List (tape_entry_t F)) (i j : Nat) : F :=
  (if (entry_at es i).left_parent = j then
      spec_left_contribution lc (entry_at es i).op (entry_at es i).adjoint (entry_at es i).value
        (entry_at es (entry_at es i).left_parent).value
        (entry_at es (entry_at es i).right_parent).value
    else 0)
  + (if (entry_at es i).right_parent = j then
      spec_right_contribution lc (entry_at es i).op (entry_at es i).adjoint (entry_at es i).value
        (entry_at es (entry_at es i).left_parent).value
        (entry_at es (entry_at es i).right_parent).value
    else 0)

end Reverse

/-!
# Vectorized forward-mode automatic differentiation (`forward.h`)

The operators and functions of `src/forward.h` on variables, for `GRADLEN = n`.  Each
function is the transformation of the variable that its body assigns to: the loop over
`i < GRADLEN` is `grad_loop`, whose iterations run in order on the variable as the preceding
iterations left it, and `value` is assigned after the loop.  The right operand of a compound
assignment is a reference, which may designate the variable on the left (`a += a`).
-/

namespace Forward

variable {F : Type} [LinearOrderedField F] {n : Nat}

/-- The struct `var_t` of forward.h, for `GRADLEN = n`. -/
structure var_t (n : Nat) (F : Type) where
  grad : Fin n → F
  value : F

/-- The function `var_zero`: `memset(a, 0, sizeof(*a))`. -/
def var_zero : var_t n F :=
  { grad := fun _ => 0, value := 0 }

/-- A leaf as the examples initialise it: the value `v` and the `k`-th unit gradient. -/
def seeded_leaf (k : Fin n) (v : F) : var_t n F :=
  { grad := fun i => if i = k then 1 else 0, value := v }

/-- The loop `for (size_t i = 0; i < GRADLEN; i++) a.grad[i] = rhs;` on the variable `a`:
iteration `i` evaluates the right-hand side in the variable as the iterations before it left
it, and assigns `grad[i]`. -/
def grad_loop (rhs : var_t n F → Fin n → F) (a : var_t n F) : var_t n F :=
  (List.finRange n).foldl (fun x i => { x with grad := Function.update x.grad i (rhs x i) }) a

/-- The unary `operator-`. -/
def operator_neg (a : var_t n F) : var_t n F :=
  let a1 := grad_loop (fun x i => -x.grad i) a
  { a1 with value := -a1.value }

/-- The binary `operator+`. -/
def operator_add (a b : var_t n F) : var_t n F :=
  let a1 := grad_loop (fun x i => x.grad i + b.grad i) a
  { a1 with value := a1.value + b.value }

/-- The binary `operator-`. -/
def operator_sub (a b : var_t n F) : var_t n F :=
  let a1 := grad_loop (fun x i => x.grad i - b.grad i) a
  { a1 with value := a1.value - b.value }

/-- The binary `operator*`. -/
def operator_mul (a b : var_t n F) : var_t n F :=
  let a1 := grad_loop (fun x i => b.value * x.grad i + x.value * b.grad i) a
  { a1 with value := a1.value * b.value }

/-- The binary `operator/`: `assert(b.value != 0)` comes first. -/
def operator_div (a b : var_t n F) : Option (var_t n F) :=
  if b.value ≠ 0 then
    let a1 := grad_loop
      (fun x i => (b.value * x.grad i - x.value * b.grad i) / (b.value * b.value)) a
    some { a1 with value := a1.value / b.value }
  else none

/-- The right operand `const var_t &b` of a compound assignment `a op= b`: another variable,
or the variable `a` itself. -/
inductive operand (n : Nat) (F : Type) where
  | other (b : var_t n F)
  | self

/-- The variable that the reference `b` designates while the left operand is `a`. -/
def operand.read (a : var_t n F) : operand n F → var_t n F
  | operand.other b => b
  | operand.self => a

/-- The compound assignment `a += b`: the variable `a` after the statement. -/
def operator_add_assign (a : var_t n F) (b : operand n F) : var_t n F :=
  let a1 := grad_loop (fun x i => x.grad i + (b.read x).grad i) a
  { a1 with value := a1.value + (b.read a1).value }

/-- The compound assignment `a -= b`. -/
def operator_sub_assign (a : var_t n F) (b : operand n F) : var_t n F :=
  let a1 := grad_loop (fun x i => x.grad i - (b.read x).grad i) a
  { a1 with value := a1.value - (b.read a1).value }

/-- The compound assignment `a *= b`. -/
def operator_mul_assign (a : var_t n F) (b : operand n F) : var_t n F :=
  let a1 := grad_loop
    (fun x i => (b.read x).value * x.grad i + x.value * (b.read x).grad i) a
  { a1 with value := a1.value * (b.read a1).value }

/-- The compound assignment `a /= b`: `assert(b.value != 0)` comes first. -/
def operator_div_assign (a : var_t n F) (b : operand n F) : Option (var_t n F) :=
  if (b.read a).value ≠ 0 then
    let a1 := grad_loop
      (fun x i => ((b.read x).value * x.grad i - x.value * (b.read x).grad i)
        / ((b.read x).value * (b.read x).value)) a
    some { a1 with value := a1.value / (b.read a1).value }
  else none

/-- The operator `var_t + float`. -/
def operator_add_float (a : var_t n F) (b : F) : var_t n F :=
  { a with value := a.value + b }

/-- The operator `var_t - float`. -/
def operator_sub_float (a : var_t n F) (b : F) : var_t n F :=
  { a with value := a.value - b }

/-- The operator `var_t * float`. -/
def operator_mul_float (a : var_t n F) (b : F) : var_t n F :=
  let a1 := grad_loop (fun x i => x.grad i * b) a
  { a1 with value := a1.value * b }

/-- The operator `float / var_t` (the source has no `assert` here). -/
def float_operator_div (a : F) (b : var_t n F) : var_t n F :=
  let b1 := grad_loop (fun x i => -a * x.grad i / (x.value * x.value)) b
  { b1 with value := a / b1.value }

/-- The compound assignment `a += b` for a float `b`. -/
def operator_add_assign_float (a : var_t n F) (b : F) : var_t n F :=
  { a with value := a.value + b }

/-- The compound assignment `a -= b` for a float `b`. -/
def operator_sub_assign_float (a : var_t n F) (b : F) : var_t n F :=
  { a with value := a.value - b }

/-- The compound assignment `a *= b` for a float `b`. -/
def operator_mul_assign_float (a : var_t n F) (b : F) : var_t n F :=
  let a1 := grad_loop (fun x i => x.grad i * b) a
  { a1 with value := a1.value * b }

/-- The function `operator/=(float a, var_t &b)`: the variable `b` after the call. -/
def float_operator_div_assign (a : F) (b : var_t n F) : var_t n F :=
  let b1 := grad_loop (fun x i => -a * x.grad i / (x.value * x.value)) b
  { b1 with value := a / b1.value }

/-- The function `var_pow(var_t a, float b)`: `assert(a.value > 0)` comes first, and
`powf(a.value, b-1)` is computed before the loop. -/
def var_pow (lc : Reverse.libc F) (a : var_t n F) (b : F) : Option (var_t n F) :=
  if 0 < a.value then
    let pow := lc.powf a.value (b - 1)
    let a1 := grad_loop (fun x i => b * x.grad i * pow) a
    some { a1 with value := lc.powf a1.value b }
  else none

/-- The function `var_exp`. -/
def var_exp (lc : Reverse.libc F) (a : var_t n F) : var_t n F :=
  let expa := lc.expf a.value
  let a1 := grad_loop (fun x i => x.grad i * expa) a
  { a1 with value := expa }

/-- The function `var_cos`. -/
def var_cos (lc : Reverse.libc F) (a : var_t n F) : var_t n F :=
  let sina := -lc.sinf a.value
  let a1 := grad_loop (fun x i => x.grad i * sina) a
  { a1 with value := lc.cosf a1.value }

/-- The function `var_sin`. -/
def var_sin (lc : Reverse.libc F) (a : var_t n F) : var_t n F :=
  let cosa := lc.cosf a.value
  let a1 := grad_loop (fun x i => x.grad i * cosa) a
  { a1 with value := lc.sinf a1.value }

/-- The function `var_sqrt` (its `assert` is commented out in the source). -/
def var_sqrt (lc : Reverse.libc F) (a : var_t n F) : var_t n F :=
  let a1 := grad_loop (fun x i => 0.5 * x.grad i / lc.sqrtf x.value) a
  { a1 with value := lc.sqrtf a1.value }

/-- The entry `P[i]` that `poly_init(P, grad_start, grad_end)` of
`benchmark/polynomial_approximation/forward.cpp` leaves: the value `(float) i+1`, a zero
gradient, and `grad[i - grad_start] = 1` when `grad_start <= i < grad_end` (a write at or
beyond `GRADLEN` is dropped). -/
def poly_init (grad_start grad_end : Nat) (i : Nat) : var_t n F :=
  { grad := fun k => if grad_start ≤ i ∧ i < grad_end ∧ k.val = i - grad_start then 1 else 0,
    value := (i : F) + 1 }

/-- The four arithmetic operators that forward.h overloads. -/
inductive arithmetic where
  | add | sub | mul | div
  deriving DecidableEq

/-- The functions of one variable of forward.h. -/
inductive elementary where
  | exp | cos | sin | sqrt
  deriving DecidableEq

/-- The operator `a op b` on two variables. -/
def binary_operator : arithmetic → var_t n F → var_t n F → Option (var_t n F)
  | arithmetic.add, a, b => some (operator_add a b)
  | arithmetic.sub, a, b => some (operator_sub a b)
  | arithmetic.mul, a, b => some (operator_mul a b)
  | arithmetic.div, a, b => operator_div a b

/-- The compound assignment `a op= b` on two variables: the variable `a` afterwards. -/
def compound_assignment : arithmetic → var_t n F → operand n F → Option (var_t n F)
  | arithmetic.add, a, b => some (operator_add_assign a b)
  | arithmetic.sub, a, b => some (operator_sub_assign a b)
  | arithmetic.mul, a, b => some (operator_mul_assign a b)
  | arithmetic.div, a, b => operator_div_assign a b

/-- The operators on a variable and a float: `a + f`, `a - f`, `a * f` and `f / a`. -/
def float_operator : arithmetic → var_t n F → F → var_t n F
  | arithmetic.add, a, f => operator_add_float a f
  | arithmetic.sub, a, f => operator_sub_float a f
  | arithmetic.mul, a, f => operator_mul_float a f
  | arithmetic.div, a, f => float_operator_div f a

/-- The compound assignments on a variable and a float: `a += f`, `a -= f`, `a *= f` and
`operator/=(f, a)`; the variable afterwards. -/
def float_assignment : arithmetic → var_t n F → F → var_t n F
  | arithmetic.add, a, f => operator_add_assign_float a f
  | arithmetic.sub, a, f => operator_sub_assign_float a f
  | arithmetic.mul, a, f => operator_mul_assign_float a f
  | arithmetic.div, a, f => float_operator_div_assign f a

/-- The function of one variable named by `fn`. -/
def elementary_function (lc : Reverse.libc F) : elementary → var_t n F → var_t n F
  | elementary.exp, a => var_exp lc a
  | elementary.cos, a => var_cos lc a
  | elementary.sin, a => var_sin lc a
  | elementary.sqrt, a => var_sqrt lc a

/-- An expression built from the entries of an array `P` of variables with the operations of
forward.h.  A compound assignment stands for the variable it leaves on its left. -/
inductive expr (F : Type) where
  | input (k : Nat)
  | zero
  | neg (a : expr F)
  | binary (op : arithmetic) (a b : expr F)
  | assign (op : arithmetic) (a b : expr F)
  | assign_self (op : arithmetic) (a : expr F)
  | with_float (op : arithmetic) (a : expr F) (f : F)
  | assign_float (op : arithmetic) (a : expr F) (f : F)
  | pow (a : expr F) (f : F)
  | function (fn : elementary) (a : expr F)

/-- The variable that an expression evaluates to on the array `P`; `none` when an `assert`
fails on the way. -/
def eval (lc : Reverse.libc F) (P : Nat → var_t n F) : expr F → Option (var_t n F)
  | expr.input k => some (P k)
  | expr.zero => some var_zero
  | expr.neg a => (eval lc P a).map operator_neg
  | expr.binary op a b =>
      (eval lc P a).bind fun x => (eval lc P b).bind fun y => binary_operator op x y
  | expr.assign op a b =>
      (eval lc P a).bind fun x =>
        (eval lc P b).bind fun y => compound_assignment op x (operand.other y)
  | expr.assign_self op a => (eval lc P a).bind fun x => compound_assignment op x operand.self
  | expr.with_float op a f => (eval lc P a).map fun x => float_operator op x f
  | expr.assign_float op a f => (eval lc P a).map fun x => float_assignment op x f
  | expr.pow a f => (eval lc P a).bind fun x => var_pow lc x f
  | expr.function fn a => (eval lc P a).map (elementary_function lc fn)

/-- The component `c` of a variable: its value and `grad[c]`, as a variable of
`GRADLEN = 1`. -/
def slice (c : Fin n) (a : var_t n F) : var_t 1 F :=
  { grad := fun _ => a.grad c, value := a.value }

end Forward

namespace Forward

/-! ## The loop over the gradient -/

theorem var_t_eq {F : Type} {n : Nat} (a b : var_t n F) (hv : a.value = b.value)
    (hg : ∀ i, a.grad i = b.grad i) : a = b := by
  cases a
  cases b
  simp only at hv hg
  simp only [var_t.mk.injEq]
  exact ⟨funext hg, hv⟩

/-- Iterations over distinct indices, with a right-hand side that reads the value and
`grad[i]` only: each index of the list receives the right-hand side as evaluated in the
initial variable. -/
theorem foldl_grad_update {F : Type} {n : Nat} (rhs : var_t n F → Fin n → F) (a0 : var_t n F)
    (h : ∀ (x : var_t n F) (i : Fin n), x.value = a0.value → x.grad i = a0.grad i →
      rhs x i = rhs a0 i) :
    ∀ (l : List (Fin n)) (x : var_t n F), l.Nodup → x.value = a0.value →
      (∀ i ∈ l, x.grad i = a0.grad i) →
      (l.foldl (fun x i => { x with grad := Function.update x.grad i (rhs x i) }) x).value
          = a0.value
        ∧ ∀ i, (l.foldl (fun x i => { x with grad := Function.update x.grad i (rhs x i) }) x).grad i
            = if i ∈ l then rhs a0 i else x.grad i := by
  intro l
  induction l with
  | nil =>
    intro x _ hv _
    exact ⟨hv, fun i => by simp⟩
  | cons k l ih =>
    intro x hnd hv hg
    have hk : k ∉ l := (List.nodup_cons.mp hnd).1
    have hl : l.Nodup := (List.nodup_cons.mp hnd).2
    have hrk : rhs x k = rhs a0 k := h x k hv (hg k (List.mem_cons_self k l))
    obtain ⟨k1, k2⟩ := ih { x with grad := Function.update x.grad k (rhs x k) } hl hv
      (fun i hi => by
        have hik : i ≠ k := fun e => hk (e ▸ hi)
        simp only [Function.update_noteq hik]
        exact hg i (List.mem_cons_of_mem k hi))
    refine ⟨k1, fun i => ?_⟩
    simp only [List.foldl_cons]
    rw [k2 i]
    by_cases hi : i ∈ l
    · simp [hi]
    · by_cases hik : i = k
      · subst hik
        simp [hi, hrk]
      · simp [hi, hik]

/-- A loop whose right-hand side reads the value and `grad[i]` only assigns to every
`grad[i]` the right-hand side as evaluated before the loop, and keeps the value. -/
theorem grad_loop_eq {F : Type} {n : Nat} (rhs : var_t n F → Fin n → F) (a : var_t n F)
    (h : ∀ (x : var_t n F) (i : Fin n), x.value = a.value → x.grad i = a.grad i →
      rhs x i = rhs a i) :
    grad_loop rhs a = { grad := fun i => rhs a i, value := a.value } := by
  obtain ⟨k1, k2⟩ := foldl_grad_update rhs a h (List.finRange n) a (List.nodup_finRange n) rfl
    (fun _ _ => rfl)
  apply var_t_eq
  · exact k1
  · intro i
    have := k2 i
    simp only [List.mem_finRange, if_true] at this
    exact this

/-! ## The operations in closed form -/

variable {F : Type} [LinearOrderedField F] {n : Nat}

theorem operator_neg_eq (a : var_t n F) :
    operator_neg a = { grad := fun i => -a.grad i, value := -a.value } := by
  unfold operator_neg
  rw [grad_loop_eq _ a (fun x i _ hg => by simp only [hg])]

theorem operator_add_eq (a b : var_t n F) :
    operator_add a b = { grad := fun i => a.grad i + b.grad i, value := a.value + b.value } := by
  unfold operator_add
  rw [grad_loop_eq _ a (fun x i _ hg => by simp only [hg])]

theorem operator_sub_eq (a b : var_t n F) :
    operator_sub a b = { grad := fun i => a.grad i - b.grad i, value := a.value - b.value } := by
  unfold operator_sub
  rw [grad_loop_eq _ a (fun x i _ hg => by simp only [hg])]

theorem operator_mul_eq (a b : var_t n F) :
    operator_mul a b
      = { grad := fun i => b.value * a.grad i + a.value * b.grad i,
          value := a.value * b.value } := by
  unfold operator_mul
  rw [grad_loop_eq _ a (fun x i hv hg => by simp only [hv, hg])]

theorem operator_div_eq (a b : var_t n F) :
    operator_div a b
      = if b.value ≠ 0 then
          some { grad := fun i => (b.value * a.grad i - a.value * b.grad i) / (b.value * b.value),
                 value := a.value / b.value }
        else none := by
  unfold operator_div
  rw [grad_loop_eq _ a (fun x i hv hg => by simp only [hv, hg])]

theorem operator_add_assign_eq (a : var_t n F) (b : operand n F) :
    operator_add_assign a b = operator_add a (b.read a) := by
  rw [operator_add_eq]
  unfold operator_add_assign
  rw [grad_loop_eq _ a (fun x i hv hg => by cases b <;> simp only [operand.read, hv, hg])]
  cases b <;> rfl

theorem operator_sub_assign_eq (a : var_t n F) (b : operand n F) :
    operator_sub_assign a b = operator_sub a (b.read a) := by
  rw [operator_sub_eq]
  unfold operator_sub_assign
  rw [grad_loop_eq _ a (fun x i hv hg => by cases b <;> simp only [operand.read, hv, hg])]
  cases b <;> rfl

theorem operator_mul_assign_eq (a : var_t n F) (b : operand n F) :
    operator_mul_assign a b = operator_mul a (b.read a) := by
  rw [operator_mul_eq]
  unfold operator_mul_assign
  rw [grad_loop_eq _ a (fun x i hv hg => by cases b <;> simp only [operand.read, hv, hg])]
  cases b <;> rfl

theorem operator_div_assign_eq (a : var_t n F) (b : operand n F) :
    operator_div_assign a b = operator_div a (b.read a) := by
  rw [operator_div_eq]
  unfold operator_div_assign
  rw [grad_loop_eq _ a (fun x i hv hg => by cases b <;> simp only [operand.read, hv, hg])]
  cases b <;> rfl

theorem operator_mul_float_eq (a : var_t n F) (b : F) :
    operator_mul_float a b = { grad := fun i => a.grad i * b, value := a.value * b } := by
  unfold operator_mul_float
  rw [grad_loop_eq _ a (fun x i _ hg => by simp only [hg])]

theorem float_operator_div_eq (a : F) (b : var_t n F) :
    float_operator_div a b
      = { grad := fun i => -a * b.grad i / (b.value * b.value), value := a / b.value } := by
  unfold float_operator_div
  rw [grad_loop_eq _ b (fun x i hv hg => by simp only [hv, hg])]

theorem var_pow_eq (lc : Reverse.libc F) (a : var_t n F) (b : F) :
    var_pow lc a b
      = if 0 < a.value then
          some { grad := fun i => b * a.grad i * lc.powf a.value (b - 1),
                 value := lc.powf a.value b }
        else none := by
  unfold var_pow
  simp only
  rw [grad_loop_eq _ a (fun x i _ hg => by simp only [hg])]

theorem var_exp_eq (lc : Reverse.libc F) (a : var_t n F) :
    var_exp lc a = { grad := fun i => a.grad i * lc.expf a.value, value := lc.expf a.value } := by
  unfold var_exp
  simp only
  rw [grad_loop_eq _ a (fun x i _ hg => by simp only [hg])]

theorem var_cos_eq (lc : Reverse.libc F) (a : var_t n F) :
    var_cos lc a
      = { grad := fun i => a.grad i * -lc.sinf a.value, value := lc.cosf a.value } := by
  unfold var_cos
  simp only
  rw [grad_loop_eq _ a (fun x i _ hg => by simp only [hg])]

theorem var_sin_eq (lc : Reverse.libc F) (a : var_t n F) :
    var_sin lc a
      = { grad := fun i => a.grad i * lc.cosf a.value, value := lc.sinf a.value } := by
  unfold var_sin
  simp only
  rw [grad_loop_eq _ a (fun x i _ hg => by simp only [hg])]

theorem var_sqrt_eq (lc : Reverse.libc F) (a : var_t n F) :
    var_sqrt lc a
      = { grad := fun i => 0.5 * a.grad i / lc.sqrtf a.value, value := lc.sqrtf a.value } := by
  unfold var_sqrt
  rw [grad_loop_eq _ a (fun x i hv hg => by simp only [hv, hg])]

end Forward

namespace Reverse

variable {F : Type} [LinearOrderedField F]

/-! ## The block: reads and writes -/

theorem entry_at_set (es : List (tape_entry_t F)) (j i : Nat) (e : tape_entry_t F) :
    entry_at (es.set j e) i = if j = i ∧ j < es.length then e else entry_at es i := by
  unfold entry_at
  by_cases h : j = i
  · subst h
    by_cases hj : j < es.length
    · simp [hj, List.getD_eq_getElem?_getD]
    · have h1 : es[j]? = none := List.getElem?_eq_none (by omega)
      have h2 : (es.set j e)[j]? = none := List.getElem?_eq_none (by simp; omega)
      simp [hj, List.getD_eq_getElem?_getD, h1, h2]
  · simp [h, List.getD_eq_getElem?_getD, List.getElem?_set_ne h]

theorem entry_at_of_le (es : List (tape_entry_t F)) (i : Nat) (h : es.length ≤ i) :
    entry_at es i = tape_entry_zero := by
  unfold entry_at
  simp [List.getD_eq_getElem?_getD, List.getElem?_eq_none h]

theorem length_add_adjoint (es : List (tape_entry_t F)) (j : Nat) (d : F) :
    (add_adjoint es j d).length = es.length := by
  simp [add_adjoint]

theorem entry_at_add_adjoint (es : List (tape_entry_t F)) (j i : Nat) (d : F) :
    entry_at (add_adjoint es j d) i
      = { entry_at es i with
          adjoint := (entry_at es i).adjoint + (if j = i ∧ i < es.length then d else 0) } := by
  unfold add_adjoint
  rw [entry_at_set]
  by_cases h : j = i
  · subst h
    by_cases hj : j < es.length <;> simp [hj]
  · simp [h]

/-- The adjoint of every entry of the block after one step of the backward sweep. -/
theorem sweep_step_adjoint (lc : libc F) (es : List (tape_entry_t F)) (i j : Nat)
    (hj : j < es.length)
    (h : (entry_at es i).op.is_binary = true → (entry_at es i).left_parent ≠ i) :
    (entry_at (sweep_step lc es i) j).adjoint =
      (entry_at es j).adjoint
        + (if (entry_at es i).left_parent = j then
            spec_left_contribution lc (entry_at es i).op (entry_at es i).adjoint
              (entry_at es i).value (entry_at es (entry_at es i).left_parent).value
              (entry_at es (entry_at es i).right_parent).value
          else 0)
        + (if (entry_at es i).right_parent = j then
            spec_right_contribution lc (entry_at es i).op (entry_at es i).adjoint
              (entry_at es i).value (entry_at es (entry_at es i).left_parent).value
              (entry_at es (entry_at es i).right_parent).value
          else 0) := by
  unfold sweep_step
  split <;> rename_i hop <;>
    simp only [hop, operator_t.is_binary, forall_const, ne_eq, reduceCtorEq, false_implies] at h <;>
    simp only [hop, spec_left_contribution, spec_right_contribution, entry_at_add_adjoint,
      length_add_adjoint, hj, and_true, h, false_and, if_false, add_zero, mul_one, ite_self, sq]

/-- C3 (amended): one step of the backward sweep at index `i` adds to the adjoint of the left
parent and to the adjoint of the right parent exactly the amounts of the table of §4.3 (a dash
being no contribution), computed from the adjoint `a` and value `c` of node `i` and the values
`l`, `r` of its parents as they are before the step, and changes nothing else in any entry of
the block, provided a binary node is not its own left parent (which the topological order of
the tape guarantees). -/
theorem sweep_step_spec_table (lc : libc F) (es : List (tape_entry_t F)) (i j : Nat)
    (hj : j < es.length)
    (h : (entry_at es i).op.is_binary = true → (entry_at es i).left_parent ≠ i) :
    entry_at (sweep_step lc es i) j =
      { entry_at es j with
        adjoint := (entry_at es j).adjoint
          + (if (entry_at es i).left_parent = j then
              spec_left_contribution lc (entry_at es i).op (entry_at es i).adjoint
                (entry_at es i).value (entry_at es (entry_at es i).left_parent).value
                (entry_at es (entry_at es i).right_parent).value
            else 0)
          + (if (entry_at es i).right_parent = j then
              spec_right_contribution lc (entry_at es i).op (entry_at es i).adjoint
                (entry_at es i).value (entry_at es (entry_at es i).left_parent).value
                (entry_at es (entry_at es i).right_parent).value
            else 0) } := by
  unfold sweep_step
  split <;> rename_i hop <;>
    simp only [hop, operator_t.is_binary, forall_const, ne_eq, reduceCtorEq, false_implies] at h <;>
    simp only [hop, spec_left_contribution, spec_right_contribution, entry_at_add_adjoint,
      length_add_adjoint, hj, and_true, h, false_and, if_false, add_zero, mul_one, ite_self, sq]

theorem sweep_step_fields (lc : libc F) (es : List (tape_entry_t F)) (i j : Nat) :
    (entry_at (sweep_step lc es i) j).value = (entry_at es j).value
      ∧ (entry_at (sweep_step lc es i) j).left_parent = (entry_at es j).left_parent
      ∧ (entry_at (sweep_step lc es i) j).right_parent = (entry_at es j).right_parent
      ∧ (entry_at (sweep_step lc es i) j).op = (entry_at es j).op := by
  unfold sweep_step
  split <;> simp only [entry_at_add_adjoint, and_self]

theorem length_sweep_step (lc : libc F) (es : List (tape_entry_t F)) (i : Nat) :
    (sweep_step lc es i).length = es.length := by
  unfold sweep_step
  split <;> simp only [length_add_adjoint]

theorem sweep_step_adjoint_frame (lc : libc F) (es : List (tape_entry_t F)) (i j : Nat)
    (hl : (entry_at es i).op ≠ operator_t.NIL → (entry_at es i).left_parent ≠ j)
    (hr : (entry_at es i).op.is_binary = true → (entry_at es i).right_parent ≠ j) :
    (entry_at (sweep_step lc es i) j).adjoint = (entry_at es j).adjoint := by
  unfold sweep_step
  split <;> rename_i hop <;>
    simp only [hop, operator_t.is_binary, forall_const, ne_eq, reduceCtorEq, not_false_eq_true,
      not_true_eq_false, false_implies] at hl hr <;>
    simp only [entry_at_add_adjoint, hl, hr, false_and, if_false, add_zero]

theorem sweep_fields (lc : libc F) (n : Nat) (es : List (tape_entry_t F)) (j : Nat) :
    (entry_at (sweep lc n es) j).value = (entry_at es j).value
      ∧ (entry_at (sweep lc n es) j).left_parent = (entry_at es j).left_parent
      ∧ (entry_at (sweep lc n es) j).right_parent = (entry_at es j).right_parent
      ∧ (entry_at (sweep lc n es) j).op = (entry_at es j).op := by
  induction n generalizing es with
  | zero => simp [sweep]
  | succ n ih =>
    rw [sweep]
    obtain ⟨h1, h2, h3, h4⟩ := ih (sweep_step lc es n)
    obtain ⟨k1, k2, k3, k4⟩ := sweep_step_fields lc es n j
    exact ⟨h1.trans k1, h2.trans k2, h3.trans k3, h4.trans k4⟩

theorem sweep_adjoint_frame (lc : libc F) (n : Nat) (es : List (tape_entry_t F)) (j : Nat)
    (hl : ∀ i, i < n → (entry_at es i).op ≠ operator_t.NIL → (entry_at es i).left_parent ≠ j)
    (hr : ∀ i, i < n → (entry_at es i).op.is_binary = true → (entry_at es i).right_parent ≠ j) :
    (entry_at (sweep lc n es) j).adjoint = (entry_at es j).adjoint := by
  induction n generalizing es with
  | zero => simp [sweep]
  | succ n ih =>
    rw [sweep, ih (sweep_step lc es n)]
    · exact sweep_step_adjoint_frame lc es n j (hl n (Nat.lt_succ_self n)) (hr n (Nat.lt_succ_self n))
    · intro i hi
      obtain ⟨_, k2, _, k4⟩ := sweep_step_fields lc es n i
      rw [k2, k4]
      exact hl i (Nat.lt_succ_of_lt hi)
    · intro i hi
      obtain ⟨_, _, k3, k4⟩ := sweep_step_fields lc es n i
      rw [k3, k4]
      exact hr i (Nat.lt_succ_of_lt hi)

theorem entry_at_set_adjoint (es : List (tape_entry_t F)) (j i : Nat) (d : F) :
    entry_at (set_adjoint es j d) i
      = { entry_at es i with
          adjoint := if j = i ∧ i < es.length then d else (entry_at es i).adjoint } := by
  unfold set_adjoint
  rw [entry_at_set]
  by_cases h : j = i
  · subst h
    by_cases hj : j < es.length <;> simp [hj]
  · simp [h]

theorem entry_at_zero_adjoints (n : Nat) (es : List (tape_entry_t F)) (i : Nat) :
    entry_at (zero_adjoints n es) i
      = if i < n then { entry_at es i with adjoint := 0 } else entry_at es i := by
  induction n generalizing es i with
  | zero => simp [zero_adjoints]
  | succ n ih =>
    cases es with
    | nil => simp [zero_adjoints, entry_at, tape_entry_zero]
    | cons e es =>
      cases i with
      | zero => simp [zero_adjoints, entry_at]
      | succ i =>
        have := ih es i
        simp only [entry_at, zero_adjoints, List.getD_cons_succ, Nat.add_lt_add_iff_right] at this ⊢
        exact this

theorem reverse_pass_fields (lc : libc F) (tape : tape_t F) (start : var_t) (j : Nat) :
    (entry_at (tape_reverse_pass lc tape start).entries j).value = (entry_at tape.entries j).value
      ∧ (entry_at (tape_reverse_pass lc tape start).entries j).left_parent
          = (entry_at tape.entries j).left_parent
      ∧ (entry_at (tape_reverse_pass lc tape start).entries j).right_parent
          = (entry_at tape.entries j).right_parent
      ∧ (entry_at (tape_reverse_pass lc tape start).entries j).op = (entry_at tape.entries j).op := by
  unfold tape_reverse_pass
  obtain ⟨h1, h2, h3, h4⟩ := sweep_fields lc ((start.index + 1) % UINT32_RANGE)
    (set_adjoint (zero_adjoints tape.length tape.entries) start.index 1) j
  simp only [h1, h2, h3, h4, entry_at_set_adjoint, entry_at_zero_adjoints]
  split <;> simp

theorem seeded_fields (tape : tape_t F) (start : var_t) (j : Nat) :
    (entry_at (set_adjoint (zero_adjoints tape.length tape.entries) start.index 1) j).left_parent
        = (entry_at tape.entries j).left_parent
      ∧ (entry_at (set_adjoint (zero_adjoints tape.length tape.entries) start.index 1) j).right_parent
          = (entry_at tape.entries j).right_parent
      ∧ (entry_at (set_adjoint (zero_adjoints tape.length tape.entries) start.index 1) j).op
          = (entry_at tape.entries j).op := by
  simp only [entry_at_set_adjoint, entry_at_zero_adjoints]
  split <;> simp

/-- C4 (amended): on a topologically ordered tape and for `start.index < length`,
`tape_reverse_pass` leaves every node above `start.index` with adjoint `0` when its index is
below `length` (the reset loop runs over the whole tape, not only up to `start.index`) and
with its former adjoint when its index is at or beyond `length`. -/
theorem reverse_pass_resets_above_start (lc : libc F) (tape : tape_t F) (start : var_t)
    (hord : tape_ordered tape) (hs : start.index < tape.length) (j : Nat)
    (hj : start.index < j) :
    (entry_at (tape_reverse_pass lc tape start).entries j).adjoint
      = if j < tape.length then 0 else (entry_at tape.entries j).adjoint := by
  have hmod : (start.index + 1) % UINT32_RANGE ≤ start.index + 1 := Nat.mod_le _ _
  unfold tape_reverse_pass
  simp only
  rw [sweep_adjoint_frame]
  · rw [entry_at_set_adjoint, entry_at_zero_adjoints]
    have : ¬ (start.index = j) := by omega
    by_cases hjl : j < tape.length <;> simp [this, hjl]
  · intro i hi
    obtain ⟨k2, _, k4⟩ := seeded_fields tape start i
    rw [k2, k4]
    intro h
    have := (hord i (by omega)).1 h
    omega
  · intro i hi
    obtain ⟨_, k3, k4⟩ := seeded_fields tape start i
    rw [k3, k4]
    intro h
    have := (hord i (by omega)).2 h
    omega

/-! ## The adjoint is the derivative -/

theorem length_zero_adjoints (n : Nat) (es : List (tape_entry_t F)) :
    (zero_adjoints n es).length = es.length := by
  induction n generalizing es with
  | zero => rfl
  | succ n ih =>
    cases es with
    | nil => rfl
    | cons e es => simp [zero_adjoints, ih]

theorem length_set_adjoint (es : List (tape_entry_t F)) (j : Nat) (d : F) :
    (set_adjoint es j d).length = es.length := by
  simp [set_adjoint]

theorem same_fields_seeded (tape : tape_t F) (start : var_t) :
    same_fields (set_adjoint (zero_adjoints tape.length tape.entries) start.index 1)
      tape.entries := by
  refine ⟨by rw [length_set_adjoint, length_zero_adjoints], fun j => ?_⟩
  simp only [entry_at_set_adjoint, entry_at_zero_adjoints]
  split <;> simp

theorem seeded_adjoint (tape : tape_t F) (start : var_t) (hs : start.index < tape.length)
    (hblock : tape.length ≤ tape.entries.length) (j : Nat) (hj : j < tape.length) :
    (entry_at (set_adjoint (zero_adjoints tape.length tape.entries) start.index 1) j).adjoint
      = if j = start.index then 1 else 0 := by
  rw [entry_at_set_adjoint, length_zero_adjoints, entry_at_zero_adjoints]
  by_cases h : j = start.index
  · subst h
    simp only [true_and, if_true]
    rw [if_pos (by omega)]
  · have h2 : ¬ (start.index = j ∧ j < tape.entries.length) := fun hh => h hh.1.symm
    simp only [h2, if_false, h, hj, if_true]

theorem same_fields_sweep_step (lc : libc F) (es tes : List (tape_entry_t F)) (i : Nat)
    (h : same_fields es tes) : same_fields (sweep_step lc es i) tes := by
  refine ⟨by rw [length_sweep_step]; exact h.1, fun j => ?_⟩
  obtain ⟨k1, k2, k3, k4⟩ := sweep_step_fields lc es i j
  obtain ⟨m1, m2, m3, m4⟩ := h.2 j
  exact ⟨k1.trans m1, k2.trans m2, k3.trans m3, k4.trans m4⟩

theorem local_left_congr (lc : libc F) (es tes : List (tape_entry_t F)) (i : Nat)
    (h : same_fields es tes) : local_left lc es i = local_left lc tes i := by
  unfold local_left
  rw [(h.2 i).1, (h.2 i).2.1, (h.2 i).2.2.1, (h.2 i).2.2.2, (h.2 _).1, (h.2 _).1]

theorem local_right_congr (lc : libc F) (es tes : List (tape_entry_t F)) (i : Nat)
    (h : same_fields es tes) : local_right lc es i = local_right lc tes i := by
  unfold local_right
  rw [(h.2 i).1, (h.2 i).2.1, (h.2 i).2.2.1, (h.2 i).2.2.2, (h.2 _).1, (h.2 _).1]

theorem local_left_leaf (lc : libc F) (es : List (tape_entry_t F)) (i : Nat)
    (h : (entry_at es i).op = operator_t.NIL) : local_left lc es i = 0 := by
  unfold local_left
  rw [h]
  rfl

theorem local_right_unary (lc : libc F) (es : List (tape_entry_t F)) (i : Nat)
    (h : (entry_at es i).op.is_binary ≠ true) : local_right lc es i = 0 := by
  unfold local_right
  generalize (entry_at es i).op = op at h
  cases op <;> simp [spec_right_contribution, operator_t.is_binary] at h ⊢

theorem spec_left_scale (lc : libc F) (op : operator_t) (a c l r : F) :
    spec_left_contribution lc op a c l r = a * spec_left_contribution lc op 1 c l r := by
  cases op <;> simp only [spec_left_contribution] <;> ring

theorem spec_right_scale (lc : libc F) (op : operator_t) (a c l r : F) :
    spec_right_contribution lc op a c l r = a * spec_right_contribution lc op 1 c l r := by
  cases op <;> simp only [spec_right_contribution] <;> ring

theorem tangent_step_other (lc : libc F) (es : List (tape_entry_t F)) (i j : Nat) (t : Nat → F)
    (h : j ≠ i) : tangent_step lc es i t j = t j := by
  unfold tangent_step
  split
  · rfl
  · exact Function.update_noteq h _ _

theorem tangent_range_outside (lc : libc F) (es : List (tape_entry_t F)) (n a j : Nat)
    (t : Nat → F) (h : j < a ∨ a + n ≤ j) : tangent_range lc es a n t j = t j := by
  induction n generalizing a t with
  | zero => rfl
  | succ n ih =>
    simp only [tangent_range]
    rw [ih (a + 1) (tangent_step lc es a t) (by omega), tangent_step_other lc es a j t (by omega)]

theorem tangent_range_add (lc : libc F) (es : List (tape_entry_t F)) (n1 n2 a : Nat)
    (t : Nat → F) :
    tangent_range lc es a (n1 + n2) t
      = tangent_range lc es (a + n1) n2 (tangent_range lc es a n1 t) := by
  induction n1 generalizing a t with
  | zero => simp [tangent_range]
  | succ n1 ih =>
    have h : n1 + 1 + n2 = (n1 + n2) + 1 := by omega
    rw [h]
    simp only [tangent_range]
    rw [ih (a + 1) (tangent_step lc es a t)]
    have h3 : a + 1 + n1 = a + (n1 + 1) := by omega
    rw [h3]

/-- The tangent at a node between `k` and `s` is the combination of the tangents of its
parents, and `0` at a leaf. -/
theorem tangent_range_at (lc : libc F) (es : List (tape_entry_t F)) (k s i : Nat)
    (t : Nat → F) (hki : k < i) (his : i ≤ s)
    (hl : (entry_at es i).op ≠ operator_t.NIL → (entry_at es i).left_parent < i)
    (hr : (entry_at es i).op.is_binary = true → (entry_at es i).right_parent < i) :
    tangent_range lc es (k + 1) (s - k) t i
      = if (entry_at es i).op = operator_t.NIL then t i
        else local_left lc es i * tangent_range lc es (k + 1) (s - k) t (entry_at es i).left_parent
          + local_right lc es i
            * tangent_range lc es (k + 1) (s - k) t (entry_at es i).right_parent := by
  have hsplit : s - k = (i - (k + 1)) + (1 + (s - i)) := by omega
  have hfull : tangent_range lc es (k + 1) (s - k) t
      = tangent_range lc es (i + 1) (s - i)
          (tangent_step lc es i (tangent_range lc es (k + 1) (i - (k + 1)) t)) := by
    rw [hsplit, tangent_range_add]
    have h1 : k + 1 + (i - (k + 1)) = i := by omega
    rw [h1]
    have h2 : 1 + (s - i) = (s - i) + 1 := by omega
    rw [h2]
    simp only [tangent_range]
  have hlow : ∀ j, j < i → tangent_range lc es (k + 1) (s - k) t j
      = tangent_range lc es (k + 1) (i - (k + 1)) t j := by
    intro j hj
    rw [hfull, tangent_range_outside lc es _ _ j _ (by omega),
      tangent_step_other lc es i j _ (by omega)]
  have hat : tangent_range lc es (k + 1) (s - k) t i
      = tangent_step lc es i (tangent_range lc es (k + 1) (i - (k + 1)) t) i := by
    rw [hfull, tangent_range_outside lc es _ _ i _ (by omega)]
  rw [hat]
  unfold tangent_step
  by_cases hop : (entry_at es i).op = operator_t.NIL
  · simp only [hop, if_true]
    exact tangent_range_outside lc es _ _ i _ (by omega)
  · simp only [hop, if_false, Function.update_same]
    rw [hlow _ (hl hop)]
    by_cases hb : (entry_at es i).op.is_binary = true
    · rw [hlow _ (hr hb)]
    · rw [local_right_unary lc es i hb]
      ring

theorem pairing_step (lc : libc F) (es : List (tape_entry_t F)) (i : Nat) (w : Nat → F)
    (hi : i ≤ es.length)
    (hl : (entry_at es i).op ≠ operator_t.NIL → (entry_at es i).left_parent < i)
    (hr : (entry_at es i).op.is_binary = true → (entry_at es i).right_parent < i) :
    (Finset.range i).sum (fun j => (entry_at (sweep_step lc es i) j).adjoint * w j)
      = (Finset.range i).sum (fun j => (entry_at es j).adjoint * w j)
        + (entry_at es i).adjoint
          * (if (entry_at es i).op = operator_t.NIL then 0
             else local_left lc es i * w (entry_at es i).left_parent
               + local_right lc es i * w (entry_at es i).right_parent) := by
  have hself : (entry_at es i).op.is_binary = true → (entry_at es i).left_parent ≠ i := by
    intro hb
    have hne : (entry_at es i).op ≠ operator_t.NIL := by
      intro h0
      rw [h0] at hb
      exact absurd hb (by decide)
    exact Nat.ne_of_lt (hl hne)
  have key : ∀ j ∈ Finset.range i,
      (entry_at (sweep_step lc es i) j).adjoint * w j
        = (entry_at es j).adjoint * w j
          + ((if (entry_at es i).left_parent = j then
                (entry_at es i).adjoint * local_left lc es i * w (entry_at es i).left_parent
              else 0)
            + (if (entry_at es i).right_parent = j then
                (entry_at es i).adjoint * local_right lc es i * w (entry_at es i).right_parent
              else 0)) := by
    intro j hj
    have hj2 : j < es.length := by
      have := Finset.mem_range.mp hj
      omega
    rw [sweep_step_adjoint lc es i j hj2 hself]
    rw [spec_left_scale, spec_right_scale]
    unfold local_left local_right
    by_cases h1 : (entry_at es i).left_parent = j <;>
      by_cases h2 : (entry_at es i).right_parent = j <;>
      simp only [h1, h2, if_true, if_false] <;> ring
  rw [Finset.sum_congr rfl key, Finset.sum_add_distrib, Finset.sum_add_distrib,
    Finset.sum_ite_eq, Finset.sum_ite_eq]
  by_cases hop : (entry_at es i).op = operator_t.NIL
  · have hb : (entry_at es i).op.is_binary ≠ true := by
      rw [hop]
      decide
    simp only [hop, if_true, local_left_leaf lc es i hop, local_right_unary lc es i hb]
    simp
  · simp only [hop, if_false, Finset.mem_range, hl hop, if_true]
    by_cases hb : (entry_at es i).op.is_binary = true
    · simp only [hr hb, if_true]
      ring
    · rw [local_right_unary lc es i hb]
      simp only [mul_zero, zero_mul, ite_self, add_zero]
      ring

theorem sweep_adjoint_eq_tangent (lc : libc F) (tes : List (tape_entry_t F)) (k s : Nat)
    (hord : ∀ i, i ≤ s →
      ((entry_at tes i).op ≠ operator_t.NIL → (entry_at tes i).left_parent < i)
      ∧ ((entry_at tes i).op.is_binary = true → (entry_at tes i).right_parent < i))
    (hs : s < tes.length) (i : Nat) (es : List (tape_entry_t F)) (hsame : same_fields es tes)
    (hi : i ≤ s + 1) (hk : k < i)
    (hpair : (Finset.range i).sum
        (fun j => (entry_at es j).adjoint * tangent_range lc tes (k + 1) (s - k) (unit_tangent k) j)
      = tangent_range lc tes (k + 1) (s - k) (unit_tangent k) s) :
    (entry_at (sweep lc i es) k).adjoint
      = tangent_range lc tes (k + 1) (s - k) (unit_tangent k) s := by
  induction i generalizing es with
  | zero => omega
  | succ i ih =>
    rw [sweep]
    have hordi := hord i (by omega)
    have hl : (entry_at es i).op ≠ operator_t.NIL → (entry_at es i).left_parent < i := by
      rw [(hsame.2 i).2.2.2, (hsame.2 i).2.1]
      exact hordi.1
    have hr : (entry_at es i).op.is_binary = true → (entry_at es i).right_parent < i := by
      rw [(hsame.2 i).2.2.2, (hsame.2 i).2.2.1]
      exact hordi.2
    by_cases hki : k = i
    · subst hki
      rw [sweep_adjoint_frame, sweep_step_adjoint_frame lc es k k
        (fun h => Nat.ne_of_lt (hl h)) (fun h => Nat.ne_of_lt (hr h))]
      · rw [Finset.sum_range_succ] at hpair
        have hzero : (Finset.range k).sum
            (fun j => (entry_at es j).adjoint
              * tangent_range lc tes (k + 1) (s - k) (unit_tangent k) j) = 0 := by
          apply Finset.sum_eq_zero
          intro j hj
          have hj2 : j < k := Finset.mem_range.mp hj
          rw [tangent_range_outside lc tes _ _ j _ (by omega)]
          simp only [unit_tangent, if_neg (Nat.ne_of_lt hj2), mul_zero]
        rw [hzero, tangent_range_outside lc tes _ _ k _ (by omega)] at hpair
        simp only [unit_tangent, if_true, mul_one, zero_add] at hpair
        exact hpair
      · intro m hm
        have hsm := (same_fields_sweep_step lc es tes k hsame).2 m
        rw [hsm.2.2.2, hsm.2.1]
        intro h
        have := (hord m (by omega)).1 h
        omega
      · intro m hm
        have hsm := (same_fields_sweep_step lc es tes k hsame).2 m
        rw [hsm.2.2.2, hsm.2.2.1]
        intro h
        have := (hord m (by omega)).2 h
        omega
    · apply ih (sweep_step lc es i) (same_fields_sweep_step lc es tes i hsame) (by omega)
        (by omega)
      rw [pairing_step lc es i _ (by rw [hsame.1]; omega) hl hr]
      rw [Finset.sum_range_succ] at hpair
      rw [← hpair]
      congr 1
      rw [tangent_range_at lc tes k s i (unit_tangent k) (by omega) (by omega) hordi.1 hordi.2]
      rw [local_left_congr lc es tes i hsame, local_right_congr lc es tes i hsame,
        (hsame.2 i).2.2.2, (hsame.2 i).2.1, (hsame.2 i).2.2.1]
      by_cases hop : (entry_at tes i).op = operator_t.NIL
      · simp only [hop, if_true, unit_tangent, if_neg (Ne.symm hki), mul_zero]
      · simp only [hop, if_false]

theorem recompute_hasDerivAt (lc : libc ℝ) (hlc : libc_exact lc) (es : List (tape_entry_t ℝ))
    (a : Nat) (X : ℝ → Nat → ℝ) (t : Nat → ℝ) (v0 : ℝ)
    (hX : ∀ m, HasDerivAt (fun v => X v m) (t m) v0)
    (hbase : X v0 = recorded_values es)
    (hcons : (entry_at es a).op ≠ operator_t.NIL →
      (entry_at es a).value = node_value lc (entry_at es a).op
        (entry_at es (entry_at es a).left_parent).value
        (entry_at es (entry_at es a).right_parent).value)
    (hdom : node_in_domain lc es a) :
    (∀ m, HasDerivAt (fun v => recompute lc es a (X v) m) (tangent_step lc es a t m) v0)
      ∧ recompute lc es a (X v0) = recorded_values es := by
  obtain ⟨hpow, hexp, hcos, hsin, hsqrt, hlog⟩ := hlc
  unfold recompute tangent_step
  by_cases hop : (entry_at es a).op = operator_t.NIL
  · simp only [hop, if_true]
    exact ⟨hX, hbase⟩
  · simp only [hop, if_false]
    have hc := hcons hop
    have hl : X v0 (entry_at es a).left_parent
        = (entry_at es (entry_at es a).left_parent).value := by rw [hbase]; rfl
    have hr : X v0 (entry_at es a).right_parent
        = (entry_at es (entry_at es a).right_parent).value := by rw [hbase]; rfl
    constructor
    · intro m
      by_cases hm : m = a
      · subst hm
        simp only [Function.update_same]
        have hL := hX (entry_at es m).left_parent
        have hR := hX (entry_at es m).right_parent
        unfold local_left local_right
        unfold node_in_domain at hdom
        generalize hopm : (entry_at es m).op = opm at hc hdom hop
        cases opm with
        | NIL => exact absurd rfl hop
        | NEG =>
          simp only [node_value, spec_left_contribution, spec_right_contribution] at hc hdom ⊢
          exact hL.neg.congr_deriv (by ring)
        | ADD =>
          simp only [node_value, spec_left_contribution, spec_right_contribution] at hc hdom ⊢
          exact (hL.add hR).congr_deriv (by ring)
        | SUB =>
          simp only [node_value, spec_left_contribution, spec_right_contribution] at hc hdom ⊢
          exact (hL.sub hR).congr_deriv (by ring)
        | MUL =>
          simp only [node_value, spec_left_contribution, spec_right_contribution] at hc hdom ⊢
          exact (hL.mul hR).congr_deriv (by rw [hl, hr]; ring)
        | DIV =>
          simp only [node_value, spec_left_contribution, spec_right_contribution] at hc hdom ⊢
          have hr0 : X v0 (entry_at es m).right_parent ≠ 0 := by rw [hr]; exact hdom
          refine (hL.div hR hr0).congr_deriv ?_
          rw [hl, hr, hc]
          rw [hr] at hr0
          field_simp
          ring
        | POW =>
          simp only [node_value, spec_left_contribution, spec_right_contribution] at hc hdom ⊢
          have hl0 : 0 < X v0 (entry_at es m).left_parent := by rw [hl]; exact hdom
          rw [hpow] at hc ⊢
          refine (hL.rpow hR hl0).congr_deriv ?_
          rw [hl, hr, hc, hlog, Real.rpow_sub_one (ne_of_gt hdom)]
          simp only [Real.rpow_eq_pow]
          ring
        | EXP =>
          simp only [node_value, spec_left_contribution, spec_right_contribution] at hc hdom ⊢
          rw [hexp] at hc ⊢
          refine hL.exp.congr_deriv ?_
          rw [hl, hc]
          ring
        | COS =>
          simp only [node_value, spec_left_contribution, spec_right_contribution] at hc hdom ⊢
          rw [hcos] at hc ⊢
          rw [hsin] at hdom
          refine hL.cos.congr_deriv ?_
          rw [hl, hc, hsqrt]
          have h1 : (1 : ℝ) - Real.cos (entry_at es (entry_at es m).left_parent).value ^ 2
              = Real.sin (entry_at es (entry_at es m).left_parent).value ^ 2 := by
            have := Real.sin_sq_add_cos_sq (entry_at es (entry_at es m).left_parent).value
            linarith
          rw [h1, Real.sqrt_sq hdom]
          ring
        | SIN =>
          simp only [node_value, spec_left_contribution, spec_right_contribution] at hc hdom ⊢
          rw [hsin] at hc ⊢
          rw [hcos] at hdom
          refine hL.sin.congr_deriv ?_
          rw [hl, hc, hsqrt]
          have h1 : (1 : ℝ) - Real.sin (entry_at es (entry_at es m).left_parent).value ^ 2
              = Real.cos (entry_at es (entry_at es m).left_parent).value ^ 2 := by
            have := Real.sin_sq_add_cos_sq (entry_at es (entry_at es m).left_parent).value
            linarith
          rw [h1, Real.sqrt_sq hdom]
          ring
        | SQRT =>
          simp only [node_value, spec_left_contribution, spec_right_contribution] at hc hdom ⊢
          have hl0 : X v0 (entry_at es m).left_parent ≠ 0 := by rw [hl]; exact ne_of_gt hdom
          rw [hsqrt] at hc ⊢
          refine (hL.sqrt hl0).congr_deriv ?_
          rw [hl, hc]
          ring
      · simp only [Function.update_noteq hm]
        exact hX m
    · rw [hl, hr, ← hc, hbase]
      exact Function.update_eq_self a (recorded_values es)

theorem recompute_range_hasDerivAt (lc : libc ℝ) (hlc : libc_exact lc)
    (es : List (tape_entry_t ℝ)) (n a : Nat) (X : ℝ → Nat → ℝ) (t : Nat → ℝ) (v0 : ℝ)
    (hX : ∀ m, HasDerivAt (fun v => X v m) (t m) v0)
    (hbase : X v0 = recorded_values es)
    (hcons : ∀ i, a ≤ i → i < a + n → (entry_at es i).op ≠ operator_t.NIL →
      (entry_at es i).value = node_value lc (entry_at es i).op
        (entry_at es (entry_at es i).left_parent).value
        (entry_at es (entry_at es i).right_parent).value)
    (hdom : ∀ i, a ≤ i → i < a + n → node_in_domain lc es i) :
    (∀ m, HasDerivAt (fun v => recompute_range lc es a n (X v) m)
        (tangent_range lc es a n t m) v0)
      ∧ recompute_range lc es a n (X v0) = recorded_values es := by
  induction n generalizing a X t with
  | zero => exact ⟨hX, hbase⟩
  | succ n ih =>
    obtain ⟨h1, h2⟩ := recompute_hasDerivAt lc hlc es a X t v0 hX hbase
      (hcons a (le_refl a) (by omega)) (hdom a (le_refl a) (by omega))
    simp only [recompute_range, tangent_range]
    exact ih (a + 1) (fun v => recompute lc es a (X v)) (tangent_step lc es a t) h1 h2
      (fun i hi1 hi2 => hcons i (by omega) (by omega))
      (fun i hi1 hi2 => hdom i (by omega) (by omega))

/-- On an ordered and consistent tape over the reals whose operands are inside the domain
of each operator and whose `SIN` (`COS`) nodes have an operand of non-negative cosine
(sine), the adjoint that `tape_reverse_pass` leaves at a node `k <= start.index` is the
derivative of the value at `start` with respect to the value of node `k`, at the recorded
values. -/
theorem reverse_pass_adjoint_hasDerivAt (lc : libc ℝ) (hlc : libc_exact lc) (tape : tape_t ℝ)
    (start : var_t) (hord : tape_ordered tape) (hcons : tape_consistent lc tape)
    (hdom : tape_in_domain lc tape)
    (hs : start.index < tape.length) (hblock : tape.length ≤ tape.entries.length)
    (hu32 : tape.length < UINT32_RANGE) (k : Nat) (hk : k ≤ start.index) :
    HasDerivAt (value_at_start lc tape start k)
      (entry_at (tape_reverse_pass lc tape start).entries k).adjoint
      (entry_at tape.entries k).value := by
  have hmod : (start.index + 1) % UINT32_RANGE = start.index + 1 :=
    Nat.mod_eq_of_lt (by omega)
  have hadj : (entry_at (tape_reverse_pass lc tape start).entries k).adjoint
      = tangent_range lc tape.entries (k + 1) (start.index - k) (unit_tangent k) start.index := by
    unfold tape_reverse_pass
    simp only [hmod]
    apply sweep_adjoint_eq_tangent lc tape.entries k start.index
      (fun i hi => hord i (by omega)) (by omega) (start.index + 1) _
      (same_fields_seeded tape start) (le_refl _) (by omega)
    have key : ∀ j ∈ Finset.range (start.index + 1),
        (entry_at (set_adjoint (zero_adjoints tape.length tape.entries) start.index 1) j).adjoint
            * tangent_range lc tape.entries (k + 1) (start.index - k) (unit_tangent k) j
          = if start.index = j then
              tangent_range lc tape.entries (k + 1) (start.index - k) (unit_tangent k)
                start.index
            else 0 := by
      intro j hj
      have hj2 : j < start.index + 1 := Finset.mem_range.mp hj
      rw [seeded_adjoint tape start hs hblock j (by omega)]
      by_cases h : j = start.index
      · subst h
        simp
      · simp [h, Ne.symm h]
    rw [Finset.sum_congr rfl key, Finset.sum_ite_eq]
    simp
  rw [hadj]
  unfold value_at_start
  have hX : ∀ m, HasDerivAt
      (fun v => Function.update (recorded_values tape.entries) k v m)
      (unit_tangent k m) (entry_at tape.entries k).value := by
    intro m
    by_cases hm : m = k
    · subst hm
      simp only [Function.update_same, unit_tangent, if_true]
      exact hasDerivAt_id _
    · simp only [Function.update_noteq hm, unit_tangent, if_neg hm]
      exact hasDerivAt_const _ _
  have hbase : Function.update (recorded_values tape.entries) k (entry_at tape.entries k).value
      = recorded_values tape.entries := Function.update_eq_self k _
  exact (recompute_range_hasDerivAt lc hlc tape.entries (start.index - k) (k + 1)
    (fun v => Function.update (recorded_values tape.entries) k v) (unit_tangent k)
    (entry_at tape.entries k).value hX hbase
    (fun i hi1 hi2 => hcons i (by omega))
    (fun i hi1 hi2 => hdom i (by omega))).1 start.index

/-! ## The backward sweep on concrete tapes -/

/-- C3 (witness): the step at a `MUL` node of adjoint `1` whose parents are the leaves `2` and
`3` adds `1 * 3` to the adjoint of the left parent. -/
theorem sweep_step_spec_table_witness :
    ((entry_at [tape_entry_t.mk (2 : ℝ) 0 0 0 operator_t.NIL,
          tape_entry_t.mk 3 0 0 0 operator_t.NIL,
          tape_entry_t.mk 6 1 0 1 operator_t.MUL] 2).left_parent ≠ 2)
    ∧ (entry_at (sweep_step
        (libc.mk Real.rpow Real.exp Real.cos Real.sin Real.sqrt Real.log tape_entry_zero (fun x => x / 0))
        [tape_entry_t.mk 2 0 0 0 operator_t.NIL, tape_entry_t.mk 3 0 0 0 operator_t.NIL,
          tape_entry_t.mk 6 1 0 1 operator_t.MUL] 2) 0).adjoint = 3 := by
  refine ⟨by decide, ?_⟩
  rw [sweep_step_spec_table _ _ 2 0 (by decide) (by decide)]
  simp [entry_at, spec_left_contribution, spec_right_contribution]

/-- C3 (counterexample): at an `ADD` node of adjoint `1` that is its own left and right parent
(the block after `x = var_create(0); y = x + x` and the seeding of `y`), the step leaves the
adjoint `4`, while the amounts of the table (`a` and `a`, with `a = 1`) added to the former
adjoint give `3`: the second statement of the `ADD` case reads the adjoint that the first has
already increased. -/
theorem sweep_step_self_parent :
    (entry_at (sweep_step
        (libc.mk Real.rpow Real.exp Real.cos Real.sin Real.sqrt Real.log tape_entry_zero (fun x => x / 0))
        [tape_entry_t.mk 0 1 0 0 operator_t.ADD] 0) 0).adjoint = 4
    ∧ (1 : ℝ)
        + spec_left_contribution
            (libc.mk Real.rpow Real.exp Real.cos Real.sin Real.sqrt Real.log tape_entry_zero (fun x => x / 0))
            operator_t.ADD 1 0 0 0
        + spec_right_contribution
            (libc.mk Real.rpow Real.exp Real.cos Real.sin Real.sqrt Real.log tape_entry_zero (fun x => x / 0))
            operator_t.ADD 1 0 0 0 = 3 := by
  constructor
  · simp [sweep_step, add_adjoint, entry_at]
    norm_num
  · simp [spec_left_contribution, spec_right_contribution]
    norm_num

/-- C4 (witness): on the tape of two leaves whose second adjoint is `1`, the pass from the
first leaves the second with adjoint `0`. -/
theorem reverse_pass_resets_above_start_witness :
    tape_ordered (tape_t.mk 2 2
        [tape_entry_t.mk (3 : ℝ) 0 0 0 operator_t.NIL, tape_entry_t.mk 5 1 0 0 operator_t.NIL])
    ∧ (entry_at (tape_reverse_pass
        (libc.mk Real.rpow Real.exp Real.cos Real.sin Real.sqrt Real.log tape_entry_zero (fun x => x / 0))
        (tape_t.mk 2 2
          [tape_entry_t.mk 3 0 0 0 operator_t.NIL, tape_entry_t.mk 5 1 0 0 operator_t.NIL])
        (var_t.mk 0)).entries 1).adjoint = 0 :=
  ⟨by decide,
    reverse_pass_resets_above_start _ _ (var_t.mk 0) (by decide) (by decide) 1 (by decide)⟩

/-- C4 (counterexample): on a tape of two leaves, the pass from the second leaf leaves it with
adjoint `1`; the pass from the first leaf that follows sets that adjoint to `0`, although its
index is greater than `start.index`. -/
theorem reverse_pass_zeroes_later_adjoint :
    (entry_at (tape_reverse_pass
        (libc.mk Real.rpow Real.exp Real.cos Real.sin Real.sqrt Real.log tape_entry_zero (fun x => x / 0))
        (tape_t.mk 2 2
          [tape_entry_t.mk 3 0 0 0 operator_t.NIL, tape_entry_t.mk 5 0 0 0 operator_t.NIL])
        (var_t.mk 1)).entries 1).adjoint = 1
    ∧ (entry_at (tape_reverse_pass
        (libc.mk Real.rpow Real.exp Real.cos Real.sin Real.sqrt Real.log tape_entry_zero (fun x => x / 0))
        (tape_reverse_pass
          (libc.mk Real.rpow Real.exp Real.cos Real.sin Real.sqrt Real.log tape_entry_zero (fun x => x / 0))
          (tape_t.mk 2 2
            [tape_entry_t.mk 3 0 0 0 operator_t.NIL, tape_entry_t.mk 5 0 0 0 operator_t.NIL])
          (var_t.mk 1))
        (var_t.mk 0)).entries 1).adjoint = 0 := by
  constructor <;> rfl

/-- C1 (the code at the failing input): the tape holding the leaf `π` and the node
`sin π` recorded by `var_sin` is ordered and consistent; the pass from the `SIN` node leaves
the leaf with adjoint `1`, while the derivative of the value at `start` with respect to the
value of the leaf is `cos π = -1`. -/
theorem reverse_pass_sin_wrong_sign :
    tape_ordered (tape_t.mk 2 2 [tape_entry_t.mk Real.pi 0 0 0 operator_t.NIL,
        tape_entry_t.mk (Real.sin Real.pi) 0 0 0 operator_t.SIN])
    ∧ tape_consistent
        (libc.mk Real.rpow Real.exp Real.cos Real.sin Real.sqrt Real.log tape_entry_zero (fun x => x / 0))
        (tape_t.mk 2 2 [tape_entry_t.mk Real.pi 0 0 0 operator_t.NIL,
          tape_entry_t.mk (Real.sin Real.pi) 0 0 0 operator_t.SIN])
    ∧ (entry_at (tape_reverse_pass
        (libc.mk Real.rpow Real.exp Real.cos Real.sin Real.sqrt Real.log tape_entry_zero (fun x => x / 0))
        (tape_t.mk 2 2 [tape_entry_t.mk Real.pi 0 0 0 operator_t.NIL,
          tape_entry_t.mk (Real.sin Real.pi) 0 0 0 operator_t.SIN])
        (var_t.mk 1)).entries 0).adjoint = 1
    ∧ deriv (value_at_start
        (libc.mk Real.rpow Real.exp Real.cos Real.sin Real.sqrt Real.log tape_entry_zero (fun x => x / 0))
        (tape_t.mk 2 2 [tape_entry_t.mk Real.pi 0 0 0 operator_t.NIL,
          tape_entry_t.mk (Real.sin Real.pi) 0 0 0 operator_t.SIN])
        (var_t.mk 1) 0) Real.pi = -1 := by
  refine ⟨by decide, ?_, ?_, ?_⟩
  · intro i hi
    have hi2 : i < 2 := hi
    interval_cases i <;> simp [entry_at, node_value]
  · simp [tape_reverse_pass, zero_adjoints, set_adjoint, sweep, sweep_step, add_adjoint,
      entry_at, UINT32_RANGE]
  · have hfun : value_at_start
        (libc.mk Real.rpow Real.exp Real.cos Real.sin Real.sqrt Real.log tape_entry_zero (fun x => x / 0))
        (tape_t.mk 2 2 [tape_entry_t.mk Real.pi 0 0 0 operator_t.NIL,
          tape_entry_t.mk (Real.sin Real.pi) 0 0 0 operator_t.SIN])
        (var_t.mk 1) 0 = Real.sin := by
      funext v
      simp [value_at_start, recompute_range, recompute, recorded_values, entry_at, node_value]
    rw [hfun]
    simp

/-- The backward sweep is additive over fan-out: on the tape that holds the leaf `x`,
`p = x*x`, `q = p*x` and `y = p+q` at four distinct indices, the pass from `y` leaves the
leaf with adjoint `2*x + 3*x^2`. -/
theorem reverse_pass_fanout_distinct_nodes (lc : libc F) (x : F) :
    (entry_at (tape_reverse_pass lc
        (tape_t.mk 4 4
          [tape_entry_t.mk x 0 0 0 operator_t.NIL,
           tape_entry_t.mk (x * x) 0 0 0 operator_t.MUL,
           tape_entry_t.mk (x * x * x) 0 1 0 operator_t.MUL,
           tape_entry_t.mk (x * x + x * x * x) 0 1 2 operator_t.ADD])
        (var_t.mk 3)).entries 0).adjoint = 2 * x + 3 * x ^ 2 := by
  simp [tape_reverse_pass, zero_adjoints, set_adjoint, sweep, sweep_step, add_adjoint,
    entry_at, UINT32_RANGE]
  ring

/-- The derivative theorem at a concrete tape: for the leaf `2`, `p = x*x`, `q = p*x` and
`y = p+q` recorded at four indices, the value at `y` as a function of the value of the leaf
has the derivative `16` at `2`, which is the adjoint the pass computes. -/
theorem reverse_pass_adjoint_hasDerivAt_witness :
    HasDerivAt
      (value_at_start
        (libc.mk Real.rpow Real.exp Real.cos Real.sin Real.sqrt Real.log tape_entry_zero (fun x => x / 0))
        (tape_t.mk 4 4
          [tape_entry_t.mk 2 0 0 0 operator_t.NIL,
           tape_entry_t.mk (2 * 2) 0 0 0 operator_t.MUL,
           tape_entry_t.mk (2 * 2 * 2) 0 1 0 operator_t.MUL,
           tape_entry_t.mk (2 * 2 + 2 * 2 * 2) 0 1 2 operator_t.ADD])
        (var_t.mk 3) 0)
      16 2 := by
  have h := reverse_pass_adjoint_hasDerivAt
    (libc.mk Real.rpow Real.exp Real.cos Real.sin Real.sqrt Real.log tape_entry_zero (fun x => x / 0))
    ⟨rfl, rfl, rfl, rfl, rfl, rfl⟩
    (tape_t.mk 4 4
      [tape_entry_t.mk 2 0 0 0 operator_t.NIL,
       tape_entry_t.mk (2 * 2) 0 0 0 operator_t.MUL,
       tape_entry_t.mk (2 * 2 * 2) 0 1 0 operator_t.MUL,
       tape_entry_t.mk (2 * 2 + 2 * 2 * 2) 0 1 2 operator_t.ADD])
    (var_t.mk 3) (by decide)
    (by
      intro i hi
      have hi2 : i < 4 := hi
      interval_cases i <;> simp [entry_at, node_value])
    (by
      intro i hi
      have hi2 : i < 4 := hi
      interval_cases i <;> simp [node_in_domain, entry_at])
    (by decide) (by decide) (by decide) 0 (by decide)
  have hadj : (entry_at (tape_reverse_pass
      (libc.mk Real.rpow Real.exp Real.cos Real.sin Real.sqrt Real.log tape_entry_zero (fun x => x / 0))
      (tape_t.mk 4 4
        [tape_entry_t.mk 2 0 0 0 operator_t.NIL,
         tape_entry_t.mk (2 * 2) 0 0 0 operator_t.MUL,
         tape_entry_t.mk (2 * 2 * 2) 0 1 0 operator_t.MUL,
         tape_entry_t.mk (2 * 2 + 2 * 2 * 2) 0 1 2 operator_t.ADD])
      (var_t.mk 3)).entries 0).adjoint = 16 := by
    simp [tape_reverse_pass, zero_adjoints, set_adjoint, sweep, sweep_step, add_adjoint,
      entry_at, UINT32_RANGE]
    norm_num
  rw [hadj] at h
  exact h

/-! ## Recording: the struct is passed by value -/

/-- A call of `var_create` that returns gives the handle `global_tape.length` and leaves the
fields `length` and `capacity` of `global_tape` as they were. -/
theorem var_create_keeps_struct (lc : libc F) (g : tape_t F) (v : F) (r : var_t × tape_t F)
    (h : var_create lc g v = some r) :
    r.1.index = g.length ∧ r.2.length = g.length ∧ r.2.capacity = g.capacity := by
  unfold var_create at h
  split at h
  · cases h
  · cases h
    exact ⟨rfl, rfl, rfl⟩

/-- When its `assert` passes, `tape_extend` keeps `length <= capacity` in its own struct for
every capacity of at least `1`, and a growth doubles the capacity without wrapping. -/
theorem tape_extend_keeps_bound (lc : libc F) (t t1 : tape_t F)
    (h : tape_extend lc t = some t1) (hc : 1 ≤ t.capacity) (hl : t.length ≤ t.capacity) :
    t1.length = t.length + 1 ∧ t1.length ≤ t1.capacity
      ∧ (t.length = t.capacity → t1.capacity = 2 * t.capacity) := by
  unfold tape_extend at h
  unfold MAX_TAPE_LENGTH UINT32_RANGE at h
  split at h
  · split at h
    · cases h
      refine ⟨rfl, ?_, fun _ => ?_⟩ <;> simp only <;> omega
    · cases h
      refine ⟨rfl, ?_, fun hh => absurd hh ‹_›⟩
      simp only
      omega
  · cases h

theorem length_memset_zero (es : List (tape_entry_t F)) (off n : Nat) :
    (memset_zero es off n).length = es.length := by
  induction es generalizing off n with
  | nil => simp [memset_zero]
  | cons e es ih =>
    cases off with
    | zero =>
      cases n with
      | zero => simp [memset_zero]
      | succ n => simp [memset_zero, ih]
    | succ off => simp [memset_zero, ih]

theorem entry_at_memset_zero (es : List (tape_entry_t F)) (off n i : Nat) :
    entry_at (memset_zero es off n) i
      = if off ≤ i ∧ i < off + n then tape_entry_zero else entry_at es i := by
  induction es generalizing off n i with
  | nil => simp [memset_zero, entry_at]
  | cons e es ih =>
    cases off with
    | zero =>
      cases n with
      | zero => simp [memset_zero]
      | succ n =>
        cases i with
        | zero => simp [memset_zero, entry_at]
        | succ i =>
          have := ih 0 n i
          simp only [entry_at, memset_zero, List.getD_cons_succ] at this ⊢
          rw [this]
          simp
    | succ off =>
      cases i with
      | zero => simp [memset_zero, entry_at]
      | succ i =>
        have := ih off n i
        simp only [entry_at, memset_zero, List.getD_cons_succ] at this ⊢
        rw [this]
        have h1 : (off + 1 ≤ i + 1 ∧ i + 1 < off + 1 + n) ↔ (off ≤ i ∧ i < off + n) := by omega
        simp only [h1]

theorem entry_at_realloc (lc : libc F) (es : List (tape_entry_t F)) (n i : Nat)
    (hi : i < es.length) (hn : i < n) :
    entry_at (realloc lc es n) i = entry_at es i := by
  unfold realloc entry_at
  simp only [List.getD_eq_getElem?_getD]
  rw [List.getElem?_append_left (by simp; omega), List.getElem?_take_of_lt hn]

/-- A growth of `tape_extend` on a tape whose block holds `capacity` entries: the block is
twice as long, the entries below the old capacity are unchanged, those from the old capacity
on are zero. -/
theorem tape_extend_growth (lc : libc F) (t t1 : tape_t F) (h : tape_extend lc t = some t1)
    (hg : t.length = t.capacity) (hb : t.entries.length = t.capacity) :
    t1.capacity = 2 * t.capacity ∧ t1.entries.length = 2 * t.capacity
      ∧ (∀ i, i < t.capacity → entry_at t1.entries i = entry_at t.entries i)
      ∧ (∀ i, t.capacity ≤ i → entry_at t1.entries i = tape_entry_zero) := by
  unfold tape_extend at h
  unfold MAX_TAPE_LENGTH UINT32_RANGE at h
  split at h
  · rename_i hlt
    cases h
    have hm : 2 * t.capacity % 4294967296 = 2 * t.capacity := Nat.mod_eq_of_lt (by omega)
    simp only [hm]
    refine ⟨trivial, ?_, ?_, ?_⟩
    · rw [length_memset_zero]
      simp [realloc, hb]
      omega
    · intro i hi
      rw [entry_at_memset_zero, if_neg (by omega), entry_at_realloc lc _ _ _ (by omega) (by omega)]
    · intro i hi
      rw [entry_at_memset_zero]
      by_cases hi2 : i < t.capacity + t.capacity
      · rw [if_pos ⟨hi, hi2⟩]
      · rw [if_neg (by omega)]
        apply entry_at_of_le
        simp [realloc, hb]
        omega
  · cases h

theorem record_unary_keeps_struct (lc : libc F) (g : tape_t F) (op : operator_t) (a : var_t)
    (v : F) (r : var_t × tape_t F) (h : record_unary lc g op a v = some r) :
    r.1.index = g.length ∧ r.2.length = g.length ∧ r.2.capacity = g.capacity := by
  unfold record_unary at h
  split at h
  · cases h
  · rename_i b g1 hv
    cases h
    exact var_create_keeps_struct lc g v (b, g1) hv

theorem record_binary_keeps_struct (lc : libc F) (g : tape_t F) (op : operator_t) (a b : var_t)
    (v : F) (r : var_t × tape_t F) (h : record_binary lc g op a b v = some r) :
    r.1.index = g.length ∧ r.2.length = g.length ∧ r.2.capacity = g.capacity := by
  unfold record_binary at h
  split at h
  · cases h
  · rename_i c g1 hv
    cases h
    exact var_create_keeps_struct lc g v (c, g1) hv

theorem run_call_keeps_struct (lc : libc F) (g : tape_t F) (c : recorder_call F)
    (r : var_t × tape_t F) (h : run_call lc g c = some r) :
    r.1.index = g.length ∧ r.2.length = g.length ∧ r.2.capacity = g.capacity := by
  cases c with
  | create v => exact var_create_keeps_struct lc g v r h
  | neg a => exact record_unary_keeps_struct lc g _ a _ r h
  | add a b => exact record_binary_keeps_struct lc g _ a b _ r h
  | sub a b => exact record_binary_keeps_struct lc g _ a b _ r h
  | mul a b => exact record_binary_keeps_struct lc g _ a b _ r h
  | div a b =>
    simp only [run_call, operator_div] at h
    split at h
    · cases h
    · rename_i c g1 hv
      split at h
      · cases h
        exact var_create_keeps_struct lc g _ (c, g1) hv
      · cases h
  | pow a b =>
    simp only [run_call, var_pow] at h
    split at h
    · exact record_binary_keeps_struct lc g _ a b _ r h
    · cases h
  | exp a => exact record_unary_keeps_struct lc g _ a _ r h
  | cos a => exact record_unary_keeps_struct lc g _ a _ r h
  | sin a => exact record_unary_keeps_struct lc g _ a _ r h
  | sqrt a => exact record_unary_keeps_struct lc g _ a _ r h

/-- Whatever the sequence of calls, `global_tape` keeps the `length` and the `capacity` it
had at the start, and every handle returned has the index `length`. -/
theorem run_calls_keeps_struct (lc : libc F) (g : tape_t F) (cs : List (recorder_call F))
    (r : List var_t × tape_t F) (h : run_calls lc g cs = some r) :
    r.2.length = g.length ∧ r.2.capacity = g.capacity ∧ ∀ a ∈ r.1, a.index = g.length := by
  induction cs generalizing g r with
  | nil =>
    simp only [run_calls, Option.some.injEq] at h
    subst h
    simp
  | cons c cs ih =>
    simp only [run_calls] at h
    split at h
    · cases h
    · rename_i a g1 hc
      split at h
      · cases h
      · rename_i hs g2 hcs
        cases h
        obtain ⟨k1, k2, k3⟩ := run_call_keeps_struct lc g c (a, g1) hc
        obtain ⟨m1, m2, m3⟩ := ih g1 (hs, g2) hcs
        simp only at k1 k2 k3 m1 m2 m3
        refine ⟨by simp only; omega, by simp only; omega, ?_⟩
        intro x hx
        simp only [List.mem_cons] at hx
        rcases hx with hx | hx
        · rw [hx, k1]
        · rw [m3 x hx, k2]

theorem tape_extend_without_growth (lc : libc F) (t t1 : tape_t F)
    (h : tape_extend lc t = some t1) (hne : t.length ≠ t.capacity) :
    t1.entries = t.entries := by
  unfold tape_extend at h
  by_cases hm : t.length < MAX_TAPE_LENGTH
  · rw [if_pos hm, if_neg hne] at h
    cases h
    rfl
  · rw [if_neg hm] at h
    cases h

/-- What `var_create` writes when no growth is due: the entry at the returned index takes
the value, every other entry of the block is unchanged. -/
theorem var_create_writes (lc : libc F) (g : tape_t F) (v : F) (r : var_t × tape_t F)
    (h : var_create lc g v = some r) (hin : g.length < g.capacity)
    (hb : g.entries.length = g.capacity) :
    entry_at r.2.entries r.1.index = { entry_at g.entries g.length with value := v }
      ∧ (∀ j, j ≠ g.length → entry_at r.2.entries j = entry_at g.entries j)
      ∧ r.2.entries.length = g.entries.length := by
  unfold var_create at h
  split at h
  · cases h
  · rename_i t ht
    cases h
    have he := tape_extend_without_growth lc g t ht (by omega)
    simp only [set_value, he]
    refine ⟨?_, fun j hj => ?_, by simp⟩
    · rw [entry_at_set, if_pos ⟨rfl, by omega⟩]
    · rw [entry_at_set, if_neg (fun hh => hj hh.1.symm)]

/-- What a unary recorder writes when no growth is due. -/
theorem record_unary_writes (lc : libc F) (g : tape_t F) (op : operator_t) (a : var_t) (v : F)
    (r : var_t × tape_t F) (h : record_unary lc g op a v = some r) (hin : g.length < g.capacity)
    (hb : g.entries.length = g.capacity) :
    entry_at r.2.entries r.1.index
        = { entry_at g.entries g.length with value := v, op := op, left_parent := a.index }
      ∧ ∀ j, j ≠ g.length → entry_at r.2.entries j = entry_at g.entries j := by
  unfold record_unary at h
  split at h
  · cases h
  · rename_i b g1 hv
    cases h
    obtain ⟨k1, k2, k3⟩ := var_create_writes lc g v (b, g1) hv hin hb
    obtain ⟨m1, -, -⟩ := var_create_keeps_struct lc g v (b, g1) hv
    simp only at k1 k2 k3 m1 ⊢
    simp only [set_unary]
    refine ⟨?_, fun j hj => ?_⟩
    · rw [entry_at_set, if_pos ⟨rfl, by omega⟩, k1]
    · rw [entry_at_set, if_neg (fun hh => hj (by rw [← hh.1, m1])), k2 j hj]

/-- What a binary recorder writes when no growth is due. -/
theorem record_binary_writes (lc : libc F) (g : tape_t F) (op : operator_t) (a b : var_t)
    (v : F) (r : var_t × tape_t F) (h : record_binary lc g op a b v = some r)
    (hin : g.length < g.capacity) (hb : g.entries.length = g.capacity) :
    entry_at r.2.entries r.1.index
        = { entry_at g.entries g.length with
            value := v, op := op, left_parent := a.index, right_parent := b.index }
      ∧ ∀ j, j ≠ g.length → entry_at r.2.entries j = entry_at g.entries j := by
  unfold record_binary at h
  split at h
  · cases h
  · rename_i c g1 hv
    cases h
    obtain ⟨k1, k2, k3⟩ := var_create_writes lc g v (c, g1) hv hin hb
    obtain ⟨m1, -, -⟩ := var_create_keeps_struct lc g v (c, g1) hv
    simp only at k1 k2 k3 m1 ⊢
    simp only [set_binary]
    refine ⟨?_, fun j hj => ?_⟩
    · rw [entry_at_set, if_pos ⟨rfl, by omega⟩, k1]
    · rw [entry_at_set, if_neg (fun hh => hj (by rw [← hh.1, m1])), k2 j hj]

/-- C5 (the code at the failing input): on a tape created with capacity `64`, two successive
calls of `var_create` both return the handle of index `0`; the length of the active tape is
`0` after each of them, and the value read through the first handle is the value given to
the second call. -/
theorem var_create_twice_same_handle (lc : libc F) :
    (do
      let g0 ← tape_create 64
      let (x, g1) ← var_create lc (tape_load g0) 1
      let (y, g2) ← var_create lc g1 2
      pure (x.index, y.index, g1.length, g2.length, var_value g2 x))
    = some (0, 0, 0, 0, (2 : F)) := by
  rfl

/-- C6 (the code at the failing input): after `x = var_create(2)`, `y = var_create(3)` and
`z = x + y` on a tape of capacity `64`, the three handles have index `0`, the length of the
active tape is `0`, and both `var_value(z)` and `var_value(x)` are `6`. -/
theorem operator_add_overwrites_operands (lc : libc F) :
    (do
      let g0 ← tape_create 64
      let (x, g1) ← var_create lc (tape_load g0) 2
      let (y, g2) ← var_create lc g1 3
      let (z, g3) ← operator_add lc g2 x y
      pure (x.index, y.index, z.index, g3.length, var_value g3 z, var_value g3 x))
    = some (0, 0, 0, 0, (6 : F), (6 : F)) := by
  have h : (3 : F) + 3 = 6 := by norm_num
  rw [← h]
  rfl

/-- C7 (the code at the failing input): after `x = var_create(2)` and `y = -x` on a tape of
capacity `64`, both handles have index `0`, the length of the active tape is `0`, and the
node of `x` now has the value `-2` and the tag `NEG`. -/
theorem operator_neg_overwrites_operand (lc : libc F) :
    (do
      let g0 ← tape_create 64
      let (x, g1) ← var_create lc (tape_load g0) 2
      let (y, g2) ← operator_neg lc g1 x
      pure (x.index, y.index, g2.length, var_value g2 x, (entry_at g2.entries x.index).op))
    = some (0, 0, 0, (-2 : F), operator_t.NEG) := by
  rfl

/-- C8 (the code at the failing input): after `x = var_create(1)`, `y = var_create(2)` and
`z = x * y` on a tape of capacity `64`, the node of `z` has index `0`, the tag `MUL` and
both parents equal to `0`, its own index. -/
theorem operator_mul_node_is_own_parent (lc : libc F) :
    (do
      let g0 ← tape_create 64
      let (x, g1) ← var_create lc (tape_load g0) 1
      let (y, g2) ← var_create lc g1 2
      let (z, g3) ← operator_mul lc g2 x y
      pure (z.index, (entry_at g3.entries z.index).op,
        (entry_at g3.entries z.index).left_parent, (entry_at g3.entries z.index).right_parent))
    = some (0, operator_t.MUL, 0, 0) := by
  rfl

/-- A sequence of calls that returns has returned after each of its calls. -/
theorem run_calls_take (lc : libc F) (cs : List (recorder_call F)) :
    ∀ (g : tape_t F) (r : List var_t × tape_t F) (k : Nat), run_calls lc g cs = some r →
      ∃ rk, run_calls lc g (cs.take k) = some rk := by
  induction cs with
  | nil =>
    intro g r k _
    exact ⟨([], g), by simp [run_calls]⟩
  | cons c cs ih =>
    intro g r k h
    cases k with
    | zero => exact ⟨([], g), rfl⟩
    | succ k =>
      simp only [run_calls] at h
      split at h
      · cases h
      · rename_i a g1 hc
        split at h
        · cases h
        · rename_i hs g2 hcs
          obtain ⟨rk, hrk⟩ := ih g1 (hs, g2) k hcs
          refine ⟨(a :: rk.1, rk.2), ?_⟩
          simp only [List.take_succ_cons, run_calls, hc, hrk]

/-- C9: for every capacity `cap` that `tape_create` accepts and every sequence of calls of
`var_create` and of the recording operators that returns, after each call (after the first
`k` calls, for every `k`) the active tape satisfies `length <= capacity`, and if the next
`tape_extend` on it grows the tape and returns, the new capacity is exactly twice the old one
and every entry below the old capacity is unchanged.  More generally, on any tape whose block
holds `capacity` entries, a growth of `tape_extend` that returns doubles the capacity exactly
and leaves every entry below the old capacity unchanged. -/
theorem capacity_invariant (lc : libc F) (cap : Nat) (cs : List (recorder_call F))
    (g0 : tape_t F) (r : List var_t × tape_t F) (h0 : tape_create cap = some g0)
    (h : run_calls lc (tape_load g0) cs = some r) (k : Nat) :
    (∃ rk, run_calls lc (tape_load g0) (cs.take k) = some rk
        ∧ rk.2.length ≤ rk.2.capacity
        ∧ ∀ t1, tape_extend lc rk.2 = some t1 → rk.2.length = rk.2.capacity →
            t1.capacity = 2 * rk.2.capacity
              ∧ ∀ i, i < rk.2.capacity → entry_at t1.entries i = entry_at rk.2.entries i)
      ∧ (∀ t t1 : tape_t F, t.entries.length = t.capacity → t.length = t.capacity →
          tape_extend lc t = some t1 →
            t1.capacity = 2 * t.capacity
              ∧ ∀ i, i < t.capacity → entry_at t1.entries i = entry_at t.entries i) := by
  have hlen0 : (tape_load g0).length = 0 := by
    unfold tape_create at h0
    split at h0
    · cases h0
      rfl
    · cases h0
  refine ⟨?_, ?_⟩
  · obtain ⟨rk, hrk⟩ := run_calls_take lc cs (tape_load g0) r k h
    obtain ⟨k1, -, -⟩ := run_calls_keeps_struct lc (tape_load g0) (cs.take k) rk hrk
    have hl : rk.2.length = 0 := by rw [k1, hlen0]
    refine ⟨rk, hrk, by omega, ?_⟩
    intro t1 ht hgrow
    have hc : rk.2.capacity = 0 := by omega
    have hfree : rk.2.length < MAX_TAPE_LENGTH := by
      rw [hl]
      decide
    unfold tape_extend at ht
    rw [if_pos hfree, if_pos hgrow] at ht
    cases ht
    refine ⟨?_, fun i hi => ?_⟩
    · simp only [hc]
      decide
    · omega
  · intro t t1 hb hg ht
    obtain ⟨a, -, c, -⟩ := tape_extend_growth lc t t1 ht hg hb
    exact ⟨a, c⟩

/-- C9 (witness): after `tape_create(1)`, the calls `var_create(5)` and `var_create(7)` return
and leave the active tape with `length <= capacity`. -/
theorem capacity_invariant_witness :
    tape_create 1 = some (tape_t.mk 0 1 [(tape_entry_zero : tape_entry_t ℝ)])
    ∧ ∃ rk, run_calls
          (libc.mk Real.rpow Real.exp Real.cos Real.sin Real.sqrt Real.log tape_entry_zero (fun x => x / 0))
          (tape_load (tape_t.mk 0 1 [(tape_entry_zero : tape_entry_t ℝ)]))
          (List.take 2 [recorder_call.create (5 : ℝ), recorder_call.create 7]) = some rk
        ∧ rk.2.length ≤ rk.2.capacity :=
  ⟨rfl,
    let ⟨rk, h1, h2, _⟩ := (capacity_invariant
      (libc.mk Real.rpow Real.exp Real.cos Real.sin Real.sqrt Real.log tape_entry_zero (fun x => x / 0))
      1 [recorder_call.create (5 : ℝ), recorder_call.create 7]
      (tape_t.mk 0 1 [(tape_entry_zero : tape_entry_t ℝ)])
      ([var_t.mk 0, var_t.mk 0],
        tape_t.mk 0 1 [tape_entry_t.mk (7 : ℝ) 0 0 0 operator_t.NIL])
      rfl rfl 2).1
    ⟨rk, h1, h2⟩⟩

/-- C10 (the code at the failing input): on a tape created with capacity `1`, two calls of
`var_create` return the same handle of index `0`; afterwards the capacity is `1`, the length
is `0`, and the value read through the first handle is the one given to the second call. -/
theorem var_create_beyond_capacity (lc : libc F) :
    (do
      let g0 ← tape_create 1
      let (x, g1) ← var_create lc (tape_load g0) 5
      let (y, g2) ← var_create lc g1 7
      pure (x.index, y.index, g1.capacity, g2.capacity, g2.length, var_value g2 x))
    = some (0, 0, 1, 1, 0, (7 : F)) := by
  rfl

/-- C2 (the code at the failing input): recording the leaf `v`, `p = x*x`, `q = p*x` and
`y = p+q` on a tape of capacity `64` gives four handles of index `0`, and the pass from `y`
leaves `var_adjoint(x) = 4`, whatever `v` is (for `v = 2` the derivative is `16`). -/
theorem fanout_recorded_on_one_node (lc : libc F) (v : F) :
    (do
      let g0 ← tape_create 64
      let (x, g1) ← var_create lc (tape_load g0) v
      let (p, g2) ← operator_mul lc g1 x x
      let (q, g3) ← operator_mul lc g2 p x
      let (y, g4) ← operator_add lc g3 p q
      pure (x.index, p.index, q.index, y.index, var_adjoint (tape_reverse_pass lc g4 y) x))
    = some (0, 0, 0, 0, (4 : F)) := by
  have h : ((1 : F) + 1 * 1) + (1 + 1 * 1) * 1 = 4 := by norm_num
  rw [← h]
  rfl


/-! ## Clearing and creating a tape -/

/-- C11 (amended): for every tape, the call `tape_clear(tape)` leaves the capacity as it was
and zeroes every entry of the block at an index below `length`; an entry at an index from
`length` on keeps its content. -/
theorem tape_clear_zeroes_below_length (tape : tape_t F) (i : Nat) :
    (call_tape_clear tape).capacity = tape.capacity
      ∧ entry_at (call_tape_clear tape).entries i
          = if i < tape.length then tape_entry_zero else entry_at tape.entries i := by
  refine ⟨rfl, ?_⟩
  simp only [call_tape_clear, tape_clear]
  rw [entry_at_memset_zero]
  simp

/-- The call `tape_clear(tape)` leaves the caller's `length` as it was: the assignment
`tape.length = 0` is made in the callee's copy of the struct. -/
theorem call_tape_clear_keeps_length (tape : tape_t F) :
    (call_tape_clear tape).length = tape.length ∧ (tape_clear tape).length = 0 :=
  ⟨rfl, rfl⟩

/-- C11 (counterexample): after `tape_create(2)` and `x = var_create(5)` the call
`tape_clear(tape)` leaves the entry of `x`, at index `0` below the capacity `2`, with the
value `5`. -/
theorem tape_clear_keeps_recorded_value :
    (do
      let g0 ← tape_create 2
      let (x, g1) ← var_create
        (libc.mk Real.rpow Real.exp Real.cos Real.sin Real.sqrt Real.log tape_entry_zero (fun x => x / 0))
        (tape_load g0) 5
      pure (x.index, g1.capacity, var_value (call_tape_clear g1) x))
    = some (0, 2, (5 : ℝ)) := by
  rfl

/-- C12 (the code at the failing input): on a tape of capacity `64`, after `x =
var_create(5)`, `y = -x`, a reverse pass from `y` and `tape_clear(tape)`, the call
`z = var_create(7)` and the pass from `z` leave the node of `z` with the tag `NEG` and the
adjoint `0`; on a fresh tape of capacity `64` they leave it with the tag `NIL` and the
adjoint `1`. -/
theorem clear_then_rerun_differs (lc : libc F) :
    (do
      let g0 ← tape_create 64
      let (x, g1) ← var_create lc (tape_load g0) 5
      let (y, g2) ← operator_neg lc g1 x
      let g3 := call_tape_clear (tape_reverse_pass lc g2 y)
      let (z, g4) ← var_create lc g3 7
      pure (z.index, var_value g4 z, (entry_at g4.entries z.index).op,
        var_adjoint (tape_reverse_pass lc g4 z) z))
      = some (0, (7 : F), operator_t.NEG, (0 : F))
    ∧ (do
      let g0 ← tape_create 64
      let (z, g1) ← var_create lc (tape_load g0) 7
      pure (z.index, var_value g1 z, (entry_at g1.entries z.index).op,
        var_adjoint (tape_reverse_pass lc g1 z) z))
      = some (0, (7 : F), operator_t.NIL, (1 : F)) := by
  constructor
  · have h : ((1 : F) + 1 * -1) = 0 := by norm_num
    rw [← h]
    rfl
  · rfl

/-- C13: `tape_create(capacity)` fails exactly when `capacity > MAX_TAPE_LENGTH = 2^24`; a
tape it returns has length `0`, the requested capacity, and a block of `capacity` entries
that are all zero. -/
theorem tape_create_spec (capacity : Nat) :
    ((tape_create capacity : Option (tape_t F)) = none ↔ MAX_TAPE_LENGTH < capacity)
      ∧ MAX_TAPE_LENGTH = 2 ^ 24
      ∧ ∀ t : tape_t F, tape_create capacity = some t →
          t.length = 0 ∧ t.capacity = capacity ∧ t.entries.length = capacity
            ∧ ∀ i, entry_at t.entries i = tape_entry_zero := by
  unfold tape_create
  refine ⟨?_, by decide, ?_⟩
  · by_cases h : capacity ≤ MAX_TAPE_LENGTH
    · simp [h]
    · simp [h]
      omega
  · intro t ht
    by_cases h : capacity ≤ MAX_TAPE_LENGTH
    · rw [if_pos h] at ht
      cases ht
      refine ⟨rfl, rfl, by simp, fun i => ?_⟩
      unfold entry_at
      by_cases hi : i < capacity
      · simp [List.getD_eq_getElem?_getD, hi]
      · simp [List.getD_eq_getElem?_getD, hi]
    · rw [if_neg h] at ht
      cases ht

/-- C13 (witness): `tape_create(64)` returns a tape of length `0` and capacity `64` whose
entry at index `3` is zero. -/
theorem tape_create_spec_witness :
    ∃ t : tape_t ℝ, tape_create 64 = some t ∧ t.length = 0 ∧ t.capacity = 64
      ∧ entry_at t.entries 3 = tape_entry_zero := by
  refine ⟨_, rfl, ?_⟩
  obtain ⟨h1, h2, _, h4⟩ := (tape_create_spec (F := ℝ) 64).2.2 _ rfl
  exact ⟨h1, h2, h4 3⟩

/-! ## The asserts of the recorders -/

/-- On a tape that is not full, `var_create` returns. -/
theorem var_create_returns (lc : libc F) (g : tape_t F) (v : F)
    (hfree : g.length < MAX_TAPE_LENGTH) : ∃ r, var_create lc g v = some r := by
  unfold var_create tape_extend
  rw [if_pos hfree]
  by_cases h : g.length = g.capacity
  · rw [if_pos h]
    exact ⟨_, rfl⟩
  · rw [if_neg h]
    exact ⟨_, rfl⟩

theorem record_unary_returns (lc : libc F) (g : tape_t F) (op : operator_t) (a : var_t) (v : F)
    (hfree : g.length < MAX_TAPE_LENGTH) : ∃ r, record_unary lc g op a v = some r := by
  obtain ⟨r, hr⟩ := var_create_returns lc g v hfree
  unfold record_unary
  rw [hr]
  exact ⟨_, rfl⟩

theorem record_binary_returns (lc : libc F) (g : tape_t F) (op : operator_t) (a b : var_t)
    (v : F) (hfree : g.length < MAX_TAPE_LENGTH) : ∃ r, record_binary lc g op a b v = some r := by
  obtain ⟨r, hr⟩ := var_create_returns lc g v hfree
  unfold record_binary
  rw [hr]
  exact ⟨_, rfl⟩

/-- For a divisor handle that is not the index of the node about to be written, and a tape
that is not full, `operator/` fails exactly when the recorded value of the divisor is `0`. -/
theorem operator_div_fails_iff (lc : libc F) (g : tape_t F) (a b : var_t)
    (hfree : g.length < MAX_TAPE_LENGTH) (hb : b.index ≠ g.length)
    (hin : g.length < g.capacity) (hblock : g.entries.length = g.capacity) :
    operator_div lc g a b = none ↔ (entry_at g.entries b.index).value = 0 := by
  unfold operator_div
  split
  · rename_i hv
    obtain ⟨r, hr⟩ := var_create_returns lc g
      (float_div lc (entry_at g.entries a.index).value (entry_at g.entries b.index).value) hfree
    rw [hr] at hv
    cases hv
  · rename_i c g1 hv
    obtain ⟨-, k2, -⟩ := var_create_writes lc g _ (c, g1) hv hin hblock
    simp only at k2
    rw [k2 b.index hb]
    by_cases h0 : (entry_at g.entries b.index).value = 0 <;> simp [h0]

/-- C14 (the code at the failing input): on a tape of capacity `64`, after
`x = var_create(0)`, the call `y = x / x` fails only if the float quotient of `0` by `0`
compares equal to `0`; otherwise it returns the handle of index `0` whose node holds that
quotient. -/
theorem operator_div_zero_by_zero (lc : libc F) :
    (do
      let g0 ← tape_create 64
      let (x, g1) ← var_create lc (tape_load g0) 0
      let (y, g2) ← operator_div lc g1 x x
      pure (y.index, var_value g2 y))
    = if lc.div_zero 0 ≠ 0 then some (0, lc.div_zero 0) else none := by
  by_cases h : lc.div_zero 0 = 0
  · simp [tape_create, MAX_TAPE_LENGTH, tape_load, var_create, tape_extend, operator_div,
      float_div, set_value, set_binary, entry_at, var_value, h]
  · simp [tape_create, MAX_TAPE_LENGTH, tape_load, var_create, tape_extend, operator_div,
      float_div, set_value, set_binary, entry_at, var_value, h]

/-- C15: on a tape that is not full, `var_pow(a, b)` fails exactly when the recorded value of
`a` is not strictly positive, and then the block is left as it was (no node is written). -/
theorem var_pow_precondition (lc : libc F) (g : tape_t F) (a b : var_t)
    (hfree : g.length < MAX_TAPE_LENGTH) :
    (var_pow lc g a b = none ↔ (entry_at g.entries a.index).value ≤ 0)
      ∧ ((entry_at g.entries a.index).value ≤ 0 → var_pow_exit_block lc g a b = g.entries) := by
  constructor
  · unfold var_pow
    by_cases h : 0 < (entry_at g.entries a.index).value
    · rw [if_pos h]
      constructor
      · intro hn
        obtain ⟨r, hr⟩ := record_binary_returns lc g operator_t.POW a b
          (lc.powf (entry_at g.entries a.index).value (entry_at g.entries b.index).value) hfree
        rw [hr] at hn
        cases hn
      · intro hle
        exact absurd h (not_lt.mpr hle)
    · rw [if_neg h]
      exact ⟨fun _ => not_lt.mp h, fun _ => rfl⟩
  · intro hle
    unfold var_pow_exit_block
    rw [if_neg (not_lt.mpr hle)]

/-- C15 (witness): on the tape that `tape_create(1)` and `var_create(-2)` leave, `var_pow`
of that handle fails and leaves the block as it was. -/
theorem var_pow_precondition_witness :
    var_pow
        (libc.mk Real.rpow Real.exp Real.cos Real.sin Real.sqrt Real.log tape_entry_zero (fun x => x / 0))
        (tape_t.mk 0 1 [tape_entry_t.mk (-2 : ℝ) 0 0 0 operator_t.NIL])
        (var_t.mk 0) (var_t.mk 0) = none
    ∧ var_pow_exit_block
        (libc.mk Real.rpow Real.exp Real.cos Real.sin Real.sqrt Real.log tape_entry_zero (fun x => x / 0))
        (tape_t.mk 0 1 [tape_entry_t.mk (-2 : ℝ) 0 0 0 operator_t.NIL])
        (var_t.mk 0) (var_t.mk 0) = [tape_entry_t.mk (-2 : ℝ) 0 0 0 operator_t.NIL] := by
  have hv : (entry_at [tape_entry_t.mk (-2 : ℝ) 0 0 0 operator_t.NIL] 0).value ≤ 0 := by
    simp [entry_at]
  have h := var_pow_precondition
    (libc.mk Real.rpow Real.exp Real.cos Real.sin Real.sqrt Real.log tape_entry_zero (fun x => x / 0))
    (tape_t.mk 0 1 [tape_entry_t.mk (-2 : ℝ) 0 0 0 operator_t.NIL])
    (var_t.mk 0) (var_t.mk 0) (by decide)
  exact ⟨h.1.mpr hv, h.2 hv⟩

/-- C16 (amended): `var_sqrt(a)` makes no check of the value of `a`: on a tape that is not
full and whose next entry is inside the block, whatever the sign of the recorded value of
`a`, it returns the handle of index `length`, whose entry then has the tag `SQRT`, the left
parent `a.index` and the value `sqrtf` of the recorded value of `a`. -/
theorem var_sqrt_records_any_value (lc : libc F) (g : tape_t F) (a : var_t)
    (hfree : g.length < MAX_TAPE_LENGTH) (hin : g.length < g.capacity)
    (hblock : g.entries.length = g.capacity) :
    ∃ r, var_sqrt lc g a = some r ∧ r.1.index = g.length
      ∧ (entry_at r.2.entries r.1.index).op = operator_t.SQRT
      ∧ (entry_at r.2.entries r.1.index).left_parent = a.index
      ∧ (entry_at r.2.entries r.1.index).value
          = lc.sqrtf (entry_at g.entries a.index).value := by
  have hsome : ∃ r, var_sqrt lc g a = some r :=
    record_unary_returns lc g operator_t.SQRT a _ hfree
  obtain ⟨r, hr⟩ := hsome
  refine ⟨r, hr, ?_⟩
  obtain ⟨k1, -⟩ := record_unary_writes lc g _ a _ r hr hin hblock
  obtain ⟨m1, -, -⟩ := record_unary_keeps_struct lc g _ a _ r hr
  rw [k1]
  exact ⟨m1, rfl, rfl, rfl⟩

/-- C16 (witness): on the tape that `tape_create(2)` and `var_create(-4)` leave, `var_sqrt`
of that handle returns a handle. -/
theorem var_sqrt_records_any_value_witness :
    (entry_at [tape_entry_t.mk (-4 : ℝ) 0 0 0 operator_t.NIL, tape_entry_zero] 0).value < 0
    ∧ ∃ r, var_sqrt
        (libc.mk Real.rpow Real.exp Real.cos Real.sin Real.sqrt Real.log tape_entry_zero (fun x => x / 0))
        (tape_t.mk 0 2 [tape_entry_t.mk (-4 : ℝ) 0 0 0 operator_t.NIL, tape_entry_zero])
        (var_t.mk 0) = some r ∧ (entry_at r.2.entries r.1.index).op = operator_t.SQRT := by
  refine ⟨by simp [entry_at], ?_⟩
  obtain ⟨r, h1, -, h3, -⟩ := var_sqrt_records_any_value
    (libc.mk Real.rpow Real.exp Real.cos Real.sin Real.sqrt Real.log tape_entry_zero (fun x => x / 0))
    (tape_t.mk 0 2 [tape_entry_t.mk (-4 : ℝ) 0 0 0 operator_t.NIL, tape_entry_zero])
    (var_t.mk 0) (by decide) (by decide) (by decide)
  exact ⟨r, h1, h3⟩

/-- C16 (counterexample): after `tape_create(2)` and `x = var_create(-4)`, the call
`var_sqrt(x)` does not fail: it returns a handle whose node has the tag `SQRT`. -/
theorem var_sqrt_of_negative_returns :
    (do
      let g0 ← tape_create 2
      let (x, g1) ← var_create
        (libc.mk Real.rpow Real.exp Real.cos Real.sin Real.sqrt Real.log tape_entry_zero (fun x => x / 0))
        (tape_load g0) (-4 : ℝ)
      let (y, g2) ← var_sqrt
        (libc.mk Real.rpow Real.exp Real.cos Real.sin Real.sqrt Real.log tape_entry_zero (fun x => x / 0))
        g1 x
      pure (y.index, (entry_at g2.entries y.index).op))
    = some (0, operator_t.SQRT) := by
  rfl

/-- C17 (amended): `tape_reverse_pass` makes no check of `start.index` against `length`:
whatever `length` is, for a handle inside the block whose entries up to `start.index` are
in topological order, the pass is performed and leaves the adjoint `1` at `start.index`. -/
theorem reverse_pass_without_range_check (lc : libc F) (tape : tape_t F) (start : var_t)
    (hblock : start.index < tape.entries.length) (hu32 : start.index + 1 < UINT32_RANGE)
    (hord : ∀ i, i ≤ start.index →
      ((entry_at tape.entries i).op ≠ operator_t.NIL → (entry_at tape.entries i).left_parent < i)
      ∧ ((entry_at tape.entries i).op.is_binary = true
          → (entry_at tape.entries i).right_parent < i)) :
    (entry_at (tape_reverse_pass lc tape start).entries start.index).adjoint = 1 := by
  unfold tape_reverse_pass
  simp only [Nat.mod_eq_of_lt hu32]
  rw [sweep_adjoint_frame]
  · rw [entry_at_set_adjoint, length_zero_adjoints]
    simp [hblock]
  · intro i hi
    obtain ⟨k2, _, k4⟩ := seeded_fields tape start i
    rw [k2, k4]
    intro h
    have := (hord i (by omega)).1 h
    omega
  · intro i hi
    obtain ⟨_, k3, k4⟩ := seeded_fields tape start i
    rw [k3, k4]
    intro h
    have := (hord i (by omega)).2 h
    omega

/-- C17 (witness): on the tape that `tape_create(2)` and `var_create(5)` leave, whose length
is `0`, the pass from the handle of index `0` leaves the adjoint `1` there. -/
theorem reverse_pass_without_range_check_witness :
    (tape_t.mk 0 2 [tape_entry_t.mk (5 : ℝ) 0 0 0 operator_t.NIL, tape_entry_zero]).length
        ≤ (var_t.mk 0).index
    ∧ (entry_at (tape_reverse_pass
        (libc.mk Real.rpow Real.exp Real.cos Real.sin Real.sqrt Real.log tape_entry_zero (fun x => x / 0))
        (tape_t.mk 0 2 [tape_entry_t.mk (5 : ℝ) 0 0 0 operator_t.NIL, tape_entry_zero])
        (var_t.mk 0)).entries 0).adjoint = 1 :=
  ⟨by decide, reverse_pass_without_range_check _ _ (var_t.mk 0) (by decide) (by decide)
    (by decide)⟩

/-- C17 (counterexample): after `tape_create(2)` and `x = var_create(5)` the length of the
tape is `0`, so `x.index >= length`; `tape_reverse_pass(tape, x)` changes the adjoint of
`x` from `0` to `1`. -/
theorem reverse_pass_beyond_length_runs :
    (do
      let g0 ← tape_create 2
      let (x, g1) ← var_create
        (libc.mk Real.rpow Real.exp Real.cos Real.sin Real.sqrt Real.log tape_entry_zero (fun x => x / 0))
        (tape_load g0) (5 : ℝ)
      pure (decide (g1.length ≤ x.index), var_adjoint g1 x,
        var_adjoint (tape_reverse_pass
          (libc.mk Real.rpow Real.exp Real.cos Real.sin Real.sqrt Real.log tape_entry_zero (fun x => x / 0))
          g1 x) x))
    = some (true, (0 : ℝ), (1 : ℝ)) := by
  rfl

/-! ## Scenarios recorded through the operators -/

theorem option_bind_none {α β : Type} (x : Option α) (f : α → Option β)
    (h : ∀ a, x = some a → f a = none) : (x >>= f) = none := by
  cases x with
  | none => rfl
  | some a => exact h a rfl

theorem var_create_block_length (lc : libc F) (g : tape_t F) (v : F) (r : var_t × tape_t F)
    (h : var_create lc g v = some r) (hne : g.length ≠ g.capacity) :
    r.2.entries.length = g.entries.length := by
  unfold var_create at h
  split at h
  · cases h
  · rename_i t ht
    cases h
    simp [set_value, tape_extend_without_growth lc g t ht hne]

/-- When no growth is due, a call of the recording interface that returns gives the handle
`length` and leaves `length`, `capacity` and the size of the block as they were. -/
theorem run_call_by_value (lc : libc F) (g : tape_t F) (c : recorder_call F)
    (r : var_t × tape_t F) (h : run_call lc g c = some r) (hne : g.length ≠ g.capacity) :
    r.1.index = g.length ∧ r.2.length = g.length ∧ r.2.capacity = g.capacity
      ∧ r.2.entries.length = g.entries.length := by
  obtain ⟨k1, k2, k3⟩ := run_call_keeps_struct lc g c r h
  refine ⟨k1, k2, k3, ?_⟩
  have hu : ∀ (op : operator_t) (a : var_t) (v : F) (r : var_t × tape_t F),
      record_unary lc g op a v = some r → r.2.entries.length = g.entries.length := by
    intro op a v r hr
    unfold record_unary at hr
    split at hr
    · cases hr
    · rename_i b g1 hv
      cases hr
      simp [set_unary, var_create_block_length lc g v (b, g1) hv hne]
  have hbin : ∀ (op : operator_t) (a b : var_t) (v : F) (r : var_t × tape_t F),
      record_binary lc g op a b v = some r → r.2.entries.length = g.entries.length := by
    intro op a b v r hr
    unfold record_binary at hr
    split at hr
    · cases hr
    · rename_i c g1 hv
      cases hr
      simp [set_binary, var_create_block_length lc g v (c, g1) hv hne]
  cases c with
  | create v => exact var_create_block_length lc g v r h hne
  | neg a => exact hu _ a _ r h
  | add a b => exact hbin _ a b _ r h
  | sub a b => exact hbin _ a b _ r h
  | mul a b => exact hbin _ a b _ r h
  | div a b =>
    simp only [run_call, operator_div] at h
    split at h
    · cases h
    · rename_i c g1 hv
      split at h
      · cases h
        simp [set_binary, var_create_block_length lc g _ (c, g1) hv hne]
      · cases h
  | pow a b =>
    simp only [run_call, var_pow] at h
    split at h
    · exact hbin _ a b _ r h
    · cases h
  | exp a => exact hu _ a _ r h
  | cos a => exact hu _ a _ r h
  | sin a => exact hu _ a _ r h
  | sqrt a => exact hu _ a _ r h

/-- After `h = var_create(w)` and `t = -h` on a tape whose next entry is inside the block, the
entry at index `length` holds `-w`. -/
theorem neg_of_created_value (lc : libc F) (g : tape_t F) (w : F) (r1 r2 : var_t × tape_t F)
    (h1 : var_create lc g w = some r1) (h2 : operator_neg lc r1.2 r1.1 = some r2)
    (hin : g.length < g.capacity) (hb : g.entries.length = g.capacity) :
    (entry_at r2.2.entries g.length).value = -w := by
  obtain ⟨k1, k2, k3⟩ := var_create_keeps_struct lc g w r1 h1
  obtain ⟨m1, -, m3⟩ := var_create_writes lc g w r1 h1 hin hb
  obtain ⟨n1, -⟩ := record_unary_writes lc r1.2 operator_t.NEG r1.1 _ r2 h2 (by omega) (by omega)
  obtain ⟨p1, -, -⟩ := record_unary_keeps_struct lc r1.2 operator_t.NEG r1.1 _ r2 h2
  rw [p1, k2] at n1
  rw [n1]
  simp only
  rw [m1]

/-- C18 (the code at the failing input): in the program of `reverse_example.cpp` the four
leaves `a = 4`, `b = 9`, `c = 7`, `d = -2` get the same handle of index `0`, and
`var_value(a)` is `-2` once they are created; with the operands of the expression evaluated
from left to right, the `assert` of `var_pow` then fails, the node of its base holding the
`-3` of `-var_create(3)`. -/
theorem example_program_collapses (lc : libc F) :
    (do
      let g0 ← tape_create 64
      let (a, g1) ← var_create lc (tape_load g0) 4
      let (b, g2) ← var_create lc g1 9
      let (c, g3) ← var_create lc g2 7
      let (d, g4) ← var_create lc g3 (-2)
      pure (a.index, b.index, c.index, d.index, var_value g4 a))
      = some (0, 0, 0, 0, (-2 : F))
    ∧ (do
      let g0 ← tape_create 64
      let (a, g1) ← var_create lc (tape_load g0) 4
      let (b, g2) ← var_create lc g1 9
      let (c, g3) ← var_create lc g2 7
      let (d, g4) ← var_create lc g3 (-2)
      let (t1, g5) ← operator_mul lc g4 c a
      let (t2, g6) ← operator_add lc g5 b t1
      let (t3, g7) ← operator_div lc g6 a t2
      let (o, g8) ← var_create lc g7 1
      let (t4, g9) ← operator_div lc g8 o d
      let (t5, g10) ← var_exp lc g9 t4
      let (t6, g11) ← operator_add lc g10 t3 t5
      let (t7, g12) ← var_sqrt lc g11 t6
      let (h, g13) ← var_create lc g12 3
      let (t8, g14) ← operator_neg lc g13 h
      let (e, g15) ← var_pow lc g14 t7 t8
      pure (var_value g15 e))
      = none := by
  constructor
  · rfl
  · have step : ∀ (g : tape_t F) (c : recorder_call F) (r : var_t × tape_t F),
        run_call lc g c = some r →
        (g.length = 0 ∧ g.capacity = 64 ∧ g.entries.length = 64) →
        r.1.index = 0 ∧ (r.2.length = 0 ∧ r.2.capacity = 64 ∧ r.2.entries.length = 64) := by
      intro g c r hr hg
      obtain ⟨k1, k2, k3, k4⟩ := run_call_by_value lc g c r hr (by omega)
      omega
    apply option_bind_none
    intro g0 h0
    have i0 : g0.length = 0 ∧ g0.capacity = 64 ∧ g0.entries.length = 64 := by
      cases h0
      exact ⟨rfl, rfl, by simp⟩
    apply option_bind_none
    rintro ⟨a, g1⟩ h1
    have i1 := (step _ (recorder_call.create 4) _ h1 i0).2
    apply option_bind_none
    rintro ⟨b, g2⟩ h2
    have i2 := (step _ (recorder_call.create 9) _ h2 i1).2
    apply option_bind_none
    rintro ⟨c, g3⟩ h3
    have i3 := (step _ (recorder_call.create 7) _ h3 i2).2
    apply option_bind_none
    rintro ⟨d, g4⟩ h4
    have i4 := (step _ (recorder_call.create (-2)) _ h4 i3).2
    apply option_bind_none
    rintro ⟨t1, g5⟩ h5
    have i5 := (step _ (recorder_call.mul c a) _ h5 i4).2
    apply option_bind_none
    rintro ⟨t2, g6⟩ h6
    have i6 := (step _ (recorder_call.add b t1) _ h6 i5).2
    apply option_bind_none
    rintro ⟨t3, g7⟩ h7
    have i7 := (step _ (recorder_call.div a t2) _ h7 i6).2
    apply option_bind_none
    rintro ⟨o, g8⟩ h8
    have i8 := (step _ (recorder_call.create 1) _ h8 i7).2
    apply option_bind_none
    rintro ⟨t4, g9⟩ h9
    have i9 := (step _ (recorder_call.div o d) _ h9 i8).2
    apply option_bind_none
    rintro ⟨t5, g10⟩ h10
    have i10 := (step _ (recorder_call.exp t4) _ h10 i9).2
    apply option_bind_none
    rintro ⟨t6, g11⟩ h11
    have i11 := (step _ (recorder_call.add t3 t5) _ h11 i10).2
    apply option_bind_none
    rintro ⟨t7, g12⟩ h12
    obtain ⟨j1, j2, j3, j4⟩ := step _ (recorder_call.sqrt t6) _ h12 i11
    simp only at j1 j2 j3 j4
    apply option_bind_none
    rintro ⟨h, g13⟩ h13
    apply option_bind_none
    rintro ⟨t8, g14⟩ h14
    have hv := neg_of_created_value lc g12 3 (h, g13) (t8, g14) h13 h14
      (by omega) (by omega)
    have hbase : ¬ 0 < (entry_at g14.entries t7.index).value := by
      have e1 : t7.index = g12.length := by omega
      rw [e1, hv]
      norm_num
    show (var_pow lc g14 t7 t8 >>= _) = none
    unfold var_pow
    rw [if_neg hbase]
    rfl

/-- C19 (the code at the failing input): for the expression `x * y` on the leaves `x = 2` and
`y = 3`, reverse.h records the root with the value `9` and the pass leaves
`var_adjoint(x) = var_adjoint(y) = 100`, while forward.h with `GRADLEN = 2` on the unit-seeded
leaves gives the value `6` and the gradient `(3, 2)`. -/
theorem reverse_disagrees_with_forward (lc : libc F) :
    (do
      let g0 ← tape_create 64
      let (x, g1) ← var_create lc (tape_load g0) 2
      let (y, g2) ← var_create lc g1 3
      let (r, g3) ← operator_mul lc g2 x y
      pure (var_value g3 r, var_adjoint (tape_reverse_pass lc g3 r) x,
        var_adjoint (tape_reverse_pass lc g3 r) y))
      = some ((9 : F), (100 : F), (100 : F))
    ∧ (Forward.operator_mul (Forward.seeded_leaf (0 : Fin 2) (2 : F))
        (Forward.seeded_leaf (1 : Fin 2) (3 : F))).value = 6
    ∧ (Forward.operator_mul (Forward.seeded_leaf (0 : Fin 2) (2 : F))
        (Forward.seeded_leaf (1 : Fin 2) (3 : F))).grad 0 = 3
    ∧ (Forward.operator_mul (Forward.seeded_leaf (0 : Fin 2) (2 : F))
        (Forward.seeded_leaf (1 : Fin 2) (3 : F))).grad 1 = 2 := by
  refine ⟨?_, ?_, ?_, ?_⟩
  · have h1 : (3 : F) * 3 = 9 := by norm_num
    have h2 : ((1 : F) + 1 * (3 * 3)) + (1 + 1 * (3 * 3)) * (3 * 3) = 100 := by norm_num
    rw [← h2, ← h1]
    rfl
  · simp [Forward.operator_mul_eq, Forward.seeded_leaf]
    norm_num
  · simp [Forward.operator_mul_eq, Forward.seeded_leaf]
  · simp [Forward.operator_mul_eq, Forward.seeded_leaf]

/-- On the tape that holds a leaf `x` and the node `sin x` at two indices, the pass from the
node leaves the leaf with the adjoint `cos x` when `cos x >= 0`. -/
theorem reverse_pass_sin_two_nodes (x : ℝ) (h : 0 ≤ Real.cos x) :
    (entry_at (tape_reverse_pass
        (libc.mk Real.rpow Real.exp Real.cos Real.sin Real.sqrt Real.log tape_entry_zero (fun x => x / 0))
        (tape_t.mk 2 2 [tape_entry_t.mk x 0 0 0 operator_t.NIL,
          tape_entry_t.mk (Real.sin x) 0 0 0 operator_t.SIN])
        (var_t.mk 1)).entries 0).adjoint = Real.cos x := by
  simp [tape_reverse_pass, zero_adjoints, set_adjoint, sweep, sweep_step, add_adjoint,
    entry_at, UINT32_RANGE]
  have h1 : (1 : ℝ) - Real.sin x * Real.sin x = Real.cos x ^ 2 := by
    have := Real.sin_sq_add_cos_sq x
    nlinarith
  rw [h1, Real.sqrt_sq h]

/-- On the tape that holds a leaf `x` and the node `cos x` at two indices, the pass from the
node leaves the leaf with the adjoint `-sin x` when `sin x >= 0`. -/
theorem reverse_pass_cos_two_nodes (x : ℝ) (h : 0 ≤ Real.sin x) :
    (entry_at (tape_reverse_pass
        (libc.mk Real.rpow Real.exp Real.cos Real.sin Real.sqrt Real.log tape_entry_zero (fun x => x / 0))
        (tape_t.mk 2 2 [tape_entry_t.mk x 0 0 0 operator_t.NIL,
          tape_entry_t.mk (Real.cos x) 0 0 0 operator_t.COS])
        (var_t.mk 1)).entries 0).adjoint = -Real.sin x := by
  simp [tape_reverse_pass, zero_adjoints, set_adjoint, sweep, sweep_step, add_adjoint,
    entry_at, UINT32_RANGE]
  have h1 : (1 : ℝ) - Real.cos x * Real.cos x = Real.sin x ^ 2 := by
    have := Real.sin_sq_add_cos_sq x
    nlinarith
  rw [h1, Real.sqrt_sq h]

/-- C20 (the code at the failing input): after `x = var_create(0)` and `s = var_sin(x)` on a
tape of capacity `64`, both handles have index `0` and the pass from `s` leaves
`var_adjoint(x) = 2`, while `cos 0 = 1`, which is the gradient that forward.h's `var_sin`
gives for the unit-seeded leaf. -/
theorem sin_recorded_on_its_operand :
    (do
      let g0 ← tape_create 64
      let (x, g1) ← var_create
        (libc.mk Real.rpow Real.exp Real.cos Real.sin Real.sqrt Real.log tape_entry_zero (fun x => x / 0))
        (tape_load g0) (0 : ℝ)
      let (s, g2) ← var_sin
        (libc.mk Real.rpow Real.exp Real.cos Real.sin Real.sqrt Real.log tape_entry_zero (fun x => x / 0))
        g1 x
      pure (x.index, s.index, var_adjoint (tape_reverse_pass
        (libc.mk Real.rpow Real.exp Real.cos Real.sin Real.sqrt Real.log tape_entry_zero (fun x => x / 0))
        g2 s) x))
      = some (0, 0, (2 : ℝ))
    ∧ Real.cos 0 = 1
    ∧ (Forward.var_sin
        (libc.mk Real.rpow Real.exp Real.cos Real.sin Real.sqrt Real.log tape_entry_zero (fun x => x / 0))
        (Forward.seeded_leaf (0 : Fin 1) (0 : ℝ))).grad 0 = 1 := by
  refine ⟨?_, Real.cos_zero, ?_⟩
  · simp [tape_create, MAX_TAPE_LENGTH, tape_load, var_create, tape_extend, var_sin,
      record_unary, set_value, set_unary, entry_at, var_adjoint, tape_reverse_pass,
      zero_adjoints, set_adjoint, sweep, sweep_step, add_adjoint, UINT32_RANGE]
    norm_num
  · simp [Forward.var_sin_eq, Forward.seeded_leaf]


/-! ## A pass recomputes the adjoints from scratch -/

theorem same_fields_refl (es : List (tape_entry_t F)) : same_fields es es :=
  ⟨rfl, fun _ => ⟨rfl, rfl, rfl, rfl⟩⟩

theorem same_fields_symm (es tes : List (tape_entry_t F)) (h : same_fields es tes) :
    same_fields tes es :=
  ⟨h.1.symm, fun j => ⟨(h.2 j).1.symm, (h.2 j).2.1.symm, (h.2 j).2.2.1.symm, (h.2 j).2.2.2.symm⟩⟩

theorem same_fields_trans (es tes ues : List (tape_entry_t F)) (h : same_fields es tes)
    (k : same_fields tes ues) : same_fields es ues :=
  ⟨h.1.trans k.1, fun j => ⟨(h.2 j).1.trans (k.2 j).1, (h.2 j).2.1.trans (k.2 j).2.1,
    (h.2 j).2.2.1.trans (k.2 j).2.2.1, (h.2 j).2.2.2.trans (k.2 j).2.2.2⟩⟩

theorem same_fields_sweep_steps (lc : libc F) (es tes : List (tape_entry_t F)) (i : Nat)
    (h : same_fields es tes) : same_fields (sweep_step lc es i) (sweep_step lc tes i) :=
  same_fields_trans _ _ _ (same_fields_sweep_step lc es tes i h)
    (same_fields_symm _ _ (same_fields_sweep_step lc tes tes i (same_fields_refl tes)))

/-- One step of the sweep at an index below `L` on two blocks that agree on every field but
the adjoint, and on the adjoints below `L`: the adjoints below `L` agree afterwards. -/
theorem sweep_step_agree (lc : libc F) (L : Nat) (es tes : List (tape_entry_t F))
    (hf : same_fields es tes)
    (ha : ∀ j, j < L → (entry_at es j).adjoint = (entry_at tes j).adjoint)
    (i : Nat) (hi : i < L) (j : Nat) (hj : j < L) :
    (entry_at (sweep_step lc es i) j).adjoint = (entry_at (sweep_step lc tes i) j).adjoint := by
  have hv : ∀ m, (entry_at es m).value = (entry_at tes m).value := fun m => (hf.2 m).1
  have hl := (hf.2 i).2.1
  have hr := (hf.2 i).2.2.1
  have hop := (hf.2 i).2.2.2
  have hlen := hf.1
  have hai := ha i hi
  have haj := ha j hj
  unfold sweep_step
  simp only [hop, hl, hr]
  cases (entry_at tes i).op <;>
    simp only [entry_at_add_adjoint, length_add_adjoint, hv, hai, haj, hlen]

theorem sweep_agree (lc : libc F) (L n : Nat) (hn : n ≤ L) (es tes : List (tape_entry_t F))
    (hf : same_fields es tes)
    (ha : ∀ j, j < L → (entry_at es j).adjoint = (entry_at tes j).adjoint)
    (j : Nat) (hj : j < L) :
    (entry_at (sweep lc n es) j).adjoint = (entry_at (sweep lc n tes) j).adjoint := by
  induction n generalizing es tes with
  | zero => exact ha j hj
  | succ n ih =>
    rw [sweep, sweep]
    exact ih (by omega) _ _ (same_fields_sweep_steps lc es tes n hf)
      (fun m hm => sweep_step_agree lc L es tes hf ha n (by omega) m hm)

theorem length_sweep (lc : libc F) (n : Nat) (es : List (tape_entry_t F)) :
    (sweep lc n es).length = es.length := by
  induction n generalizing es with
  | zero => rfl
  | succ n ih => rw [sweep, ih, length_sweep_step]

theorem reverse_pass_agree (lc : libc F) (tape tape2 : tape_t F) (start : var_t)
    (hlen : tape.length = tape2.length) (hf : same_fields tape.entries tape2.entries)
    (hs : start.index < tape.length) (j : Nat) (hj : j < tape.length) :
    (entry_at (tape_reverse_pass lc tape start).entries j).adjoint
      = (entry_at (tape_reverse_pass lc tape2 start).entries j).adjoint := by
  unfold tape_reverse_pass
  simp only
  have hmod : (start.index + 1) % UINT32_RANGE ≤ tape.length :=
    le_trans (Nat.mod_le _ _) hs
  apply sweep_agree lc tape.length _ hmod _ _ _ _ j hj
  · exact same_fields_trans _ _ _ (same_fields_seeded tape start)
      (same_fields_trans _ _ _ hf (same_fields_symm _ _ (same_fields_seeded tape2 start)))
  · intro m hm
    simp only [entry_at_set_adjoint, entry_at_zero_adjoints, length_zero_adjoints, ← hlen, hm,
      if_true, hf.1]

theorem same_fields_reverse_pass (lc : libc F) (tape : tape_t F) (start : var_t) :
    same_fields tape.entries (tape_reverse_pass lc tape start).entries := by
  refine ⟨?_, fun j => ?_⟩
  · unfold tape_reverse_pass
    simp only [length_sweep, length_set_adjoint, length_zero_adjoints]
  · obtain ⟨h1, h2, h3, h4⟩ := reverse_pass_fields lc tape start j
    exact ⟨h1.symm, h2.symm, h3.symm, h4.symm⟩

/-- C21: two tapes that agree on the length and on the value, operator and parents of every
entry, and differ in adjoints only, have after `tape_reverse_pass` from the same `start`
with `start.index < length` the same adjoint at every index `j <= start.index`; and a second
pass from the same `start` leaves at these indices the adjoints that the first pass left. -/
theorem reverse_pass_recomputes_adjoints (lc : libc F) (tape tape2 : tape_t F) (start : var_t)
    (hlen : tape.length = tape2.length) (hf : same_fields tape.entries tape2.entries)
    (hs : start.index < tape.length) (j : Nat) (hj : j ≤ start.index) :
    (entry_at (tape_reverse_pass lc tape start).entries j).adjoint
        = (entry_at (tape_reverse_pass lc tape2 start).entries j).adjoint
      ∧ (entry_at (tape_reverse_pass lc (tape_reverse_pass lc tape start) start).entries j).adjoint
        = (entry_at (tape_reverse_pass lc tape start).entries j).adjoint := by
  refine ⟨reverse_pass_agree lc tape tape2 start hlen hf hs j (by omega), ?_⟩
  exact (reverse_pass_agree lc tape (tape_reverse_pass lc tape start) start rfl
    (same_fields_reverse_pass lc tape start) hs j (by omega)).symm

/-- C25: `tape_reverse_pass` assigns adjoints only: whatever the tape and `start`, every entry
of the block has afterwards the value, operator, left parent and right parent it had, the
block has the same number of entries, and `length` and `capacity` are unchanged. -/
theorem reverse_pass_changes_adjoints_only (lc : libc F) (tape : tape_t F) (start : var_t) :
    (tape_reverse_pass lc tape start).length = tape.length
      ∧ (tape_reverse_pass lc tape start).capacity = tape.capacity
      ∧ (tape_reverse_pass lc tape start).entries.length = tape.entries.length
      ∧ ∀ j, (entry_at (tape_reverse_pass lc tape start).entries j).value
            = (entry_at tape.entries j).value
          ∧ (entry_at (tape_reverse_pass lc tape start).entries j).op
            = (entry_at tape.entries j).op
          ∧ (entry_at (tape_reverse_pass lc tape start).entries j).left_parent
            = (entry_at tape.entries j).left_parent
          ∧ (entry_at (tape_reverse_pass lc tape start).entries j).right_parent
            = (entry_at tape.entries j).right_parent := by
  refine ⟨rfl, rfl, ?_, fun j => ?_⟩
  · unfold tape_reverse_pass
    simp only [length_sweep, length_set_adjoint, length_zero_adjoints]
  · obtain ⟨h1, h2, h3, h4⟩ := reverse_pass_fields lc tape start j
    exact ⟨h1, h4, h2, h3⟩

/-! ## The sweep visits a node after all of its consumers -/

theorem sweep_iterations_sweep (lc : libc F) (n : Nat) (es : List (tape_entry_t F)) (m k : Nat)
    (h : m + k = n) : sweep lc m (sweep_iterations lc n k es) = sweep_iterations lc n n es := by
  induction m generalizing k with
  | zero =>
    have hk : k = n := by omega
    subst hk
    rfl
  | succ m ih =>
    rw [sweep]
    have hm : m = n - 1 - k := by omega
    have hstep : sweep_step lc (sweep_iterations lc n k es) m = sweep_iterations lc n (k + 1) es := by
      rw [hm]
      rfl
    rw [hstep]
    exact ih (k + 1) (by omega)

/-- The loop as a whole is its first `n` iterations. -/
theorem sweep_eq_iterations (lc : libc F) (n : Nat) (es : List (tape_entry_t F)) :
    sweep lc n es = sweep_iterations lc n n es :=
  sweep_iterations_sweep lc n es n 0 (by omega)

theorem same_fields_sweep_iterations (lc : libc F) (n k : Nat) (es tes : List (tape_entry_t F))
    (h : same_fields es tes) : same_fields (sweep_iterations lc n k es) tes := by
  induction k with
  | zero => exact h
  | succ k ih => exact same_fields_sweep_step lc _ tes _ ih

theorem spec_right_not_binary (lc : libc F) (op : operator_t) (a c l r : F)
    (h : op.is_binary ≠ true) : spec_right_contribution lc op a c l r = 0 := by
  cases op <;> simp [spec_right_contribution, operator_t.is_binary] at h ⊢

theorem table_contribution_congr (lc : libc F) (es tes : List (tape_entry_t F)) (i j : Nat)
    (hf : same_fields es tes) (ha : (entry_at es i).adjoint = (entry_at tes i).adjoint) :
    table_contribution lc es i j = table_contribution lc tes i j := by
  unfold table_contribution
  rw [(hf.2 i).1, (hf.2 i).2.1, (hf.2 i).2.2.1, (hf.2 i).2.2.2, (hf.2 _).1, (hf.2 _).1, ha]

/-- On an ordered tape a node contributes nothing to a node at or above its own index. -/
theorem table_contribution_above (lc : libc F) (es : List (tape_entry_t F)) (i j : Nat)
    (hij : i ≤ j)
    (hl : (entry_at es i).op ≠ operator_t.NIL → (entry_at es i).left_parent < i)
    (hr : (entry_at es i).op.is_binary = true → (entry_at es i).right_parent < i) :
    table_contribution lc es i j = 0 := by
  unfold table_contribution
  have h1 : (if (entry_at es i).left_parent = j then
      spec_left_contribution lc (entry_at es i).op (entry_at es i).adjoint (entry_at es i).value
        (entry_at es (entry_at es i).left_parent).value
        (entry_at es (entry_at es i).right_parent).value
    else 0) = 0 := by
    by_cases hop : (entry_at es i).op = operator_t.NIL
    · rw [hop]
      simp [spec_left_contribution]
    · have := hl hop
      rw [if_neg (by omega)]
  have h2 : (if (entry_at es i).right_parent = j then
      spec_right_contribution lc (entry_at es i).op (entry_at es i).adjoint (entry_at es i).value
        (entry_at es (entry_at es i).left_parent).value
        (entry_at es (entry_at es i).right_parent).value
    else 0) = 0 := by
    by_cases hb : (entry_at es i).op.is_binary = true
    · have := hr hb
      rw [if_neg (by omega)]
    · rw [spec_right_not_binary lc _ _ _ _ _ hb]
      simp
  rw [h1, h2, add_zero]

/-- Once the sweep from `s` is about to visit index `i`, no later iteration changes the
adjoint of node `i`. -/
theorem sweep_iterations_frame (lc : libc F) (tes : List (tape_entry_t F)) (s : Nat)
    (hord : ∀ i, i ≤ s →
      ((entry_at tes i).op ≠ operator_t.NIL → (entry_at tes i).left_parent < i)
      ∧ ((entry_at tes i).op.is_binary = true → (entry_at tes i).right_parent < i))
    (es : List (tape_entry_t F)) (hsame : same_fields es tes) (k i : Nat) (hi : s ≤ i + k)
    (d : Nat) (hd : k + d ≤ s + 1) :
    (entry_at (sweep_iterations lc (s + 1) (k + d) es) i).adjoint
      = (entry_at (sweep_iterations lc (s + 1) k es) i).adjoint := by
  induction d with
  | zero => rfl
  | succ d ih =>
    rw [← ih (by omega)]
    have hsf := (same_fields_sweep_iterations lc (s + 1) (k + d) es tes hsame).2 (s + 1 - 1 - (k + d))
    have ho := hord (s + 1 - 1 - (k + d)) (by omega)
    show (entry_at (sweep_step lc (sweep_iterations lc (s + 1) (k + d) es) (s + 1 - 1 - (k + d))) i).adjoint
      = _
    apply sweep_step_adjoint_frame
    · rw [hsf.2.2.2, hsf.2.1]
      intro h
      have := ho.1 h
      omega
    · rw [hsf.2.2.2, hsf.2.2.1]
      intro h
      have := ho.2 h
      omega

/-- Iteration `k` of the sweep from `s` adds to each adjoint what the table has the visited
node `s - k` contribute. -/
theorem sweep_iterations_succ_adjoint (lc : libc F) (tes : List (tape_entry_t F)) (s : Nat)
    (hord : ∀ i, i ≤ s →
      ((entry_at tes i).op ≠ operator_t.NIL → (entry_at tes i).left_parent < i)
      ∧ ((entry_at tes i).op.is_binary = true → (entry_at tes i).right_parent < i))
    (es : List (tape_entry_t F)) (hsame : same_fields es tes) (k : Nat) (hk : k ≤ s)
    (j : Nat) (hj : j < es.length) :
    (entry_at (sweep_iterations lc (s + 1) (k + 1) es) j).adjoint
      = (entry_at (sweep_iterations lc (s + 1) k es) j).adjoint
        + table_contribution lc (sweep_iterations lc (s + 1) k es) (s - k) j := by
  have hsf := same_fields_sweep_iterations lc (s + 1) k es tes hsame
  have ho := hord (s - k) (by omega)
  have hidx : s + 1 - 1 - k = s - k := by omega
  show (entry_at (sweep_step lc (sweep_iterations lc (s + 1) k es) (s + 1 - 1 - k)) j).adjoint = _
  rw [hidx, sweep_step_adjoint lc _ (s - k) j (by rw [hsf.1, ← hsame.1]; exact hj)]
  · unfold table_contribution
    rw [add_assoc]
  · rw [(hsf.2 _).2.2.2, (hsf.2 _).2.1]
    intro hb
    have hne : (entry_at tes (s - k)).op ≠ operator_t.NIL := by
      intro h0
      rw [h0] at hb
      exact absurd hb (by decide)
    exact Nat.ne_of_lt (ho.1 hne)

/-- After `k` iterations of the sweep from `s`, each adjoint is its initial content plus what
the table has the nodes visited so far contribute, computed from their final adjoints. -/
theorem sweep_iterations_adjoint_sum (lc : libc F) (tes : List (tape_entry_t F)) (s : Nat)
    (hord : ∀ i, i ≤ s →
      ((entry_at tes i).op ≠ operator_t.NIL → (entry_at tes i).left_parent < i)
      ∧ ((entry_at tes i).op.is_binary = true → (entry_at tes i).right_parent < i))
    (es : List (tape_entry_t F)) (hsame : same_fields es tes) (k : Nat) (hk : k ≤ s + 1)
    (j : Nat) (hj : j < es.length) :
    (entry_at (sweep_iterations lc (s + 1) k es) j).adjoint
      = (entry_at es j).adjoint
        + (Finset.range k).sum
            (fun t => table_contribution lc (sweep_iterations lc (s + 1) (s + 1) es) (s - t) j) := by
  induction k with
  | zero => simp [sweep_iterations]
  | succ k ih =>
    rw [sweep_iterations_succ_adjoint lc tes s hord es hsame k (by omega) j hj, ih (by omega),
      Finset.sum_range_succ, add_assoc]
    congr 2
    apply table_contribution_congr
    · exact same_fields_trans _ _ _ (same_fields_sweep_iterations lc (s + 1) k es tes hsame)
        (same_fields_symm _ _ (same_fields_sweep_iterations lc (s + 1) (s + 1) es tes hsame))
    · have h := sweep_iterations_frame lc tes s hord es hsame k (s - k) (by omega) (s + 1 - k)
        (by omega)
      have e : k + (s + 1 - k) = s + 1 := by omega
      rw [e] at h
      exact h.symm

/-- C22: on a topologically ordered tape whose block holds its `length` entries, for
`start.index < length`, a node `j` at or below `start.index` has its final adjoint when the
descending sweep of `tape_reverse_pass` is about to visit it, that is after
`start.index - j` iterations, and no later iteration changes it; and after the pass the
adjoint of node `j` is `1` for `j = start.index` and `0` otherwise, plus the sum over the
nodes `i` with `j < i <= start.index` of what the table of §4.3 has node `i` contribute
through each of its parent slots that refers to `j`, computed from the final adjoint of
`i`. -/
theorem sweep_visits_node_after_consumers (lc : libc F) (tape : tape_t F) (start : var_t)
    (hord : tape_ordered tape) (hs : start.index < tape.length)
    (hblock : tape.length ≤ tape.entries.length) (hu32 : tape.length < UINT32_RANGE)
    (j : Nat) (hj : j ≤ start.index) :
    (∀ k, start.index - j ≤ k → k ≤ start.index + 1 →
        (entry_at (sweep_iterations lc (start.index + 1) k
            (set_adjoint (zero_adjoints tape.length tape.entries) start.index 1)) j).adjoint
          = (entry_at (tape_reverse_pass lc tape start).entries j).adjoint)
      ∧ (entry_at (tape_reverse_pass lc tape start).entries j).adjoint
          = (if j = start.index then 1 else 0)
            + (Finset.Ioc j start.index).sum
                (fun i => table_contribution lc (tape_reverse_pass lc tape start).entries i j) := by
  have hmod : (start.index + 1) % UINT32_RANGE = start.index + 1 :=
    Nat.mod_eq_of_lt (by omega)
  have hfinal : (tape_reverse_pass lc tape start).entries
      = sweep_iterations lc (start.index + 1) (start.index + 1)
          (set_adjoint (zero_adjoints tape.length tape.entries) start.index 1) := by
    unfold tape_reverse_pass
    simp only [hmod]
    exact sweep_eq_iterations lc _ _
  have hordle : ∀ i, i ≤ start.index →
      ((entry_at tape.entries i).op ≠ operator_t.NIL → (entry_at tape.entries i).left_parent < i)
      ∧ ((entry_at tape.entries i).op.is_binary = true
          → (entry_at tape.entries i).right_parent < i) :=
    fun i hi => hord i (by omega)
  have hsame := same_fields_seeded tape start
  rw [hfinal]
  refine ⟨fun k hk1 hk2 => ?_, ?_⟩
  · have h := sweep_iterations_frame lc tape.entries start.index hordle _ hsame k j (by omega)
      (start.index + 1 - k) (by omega)
    have e : k + (start.index + 1 - k) = start.index + 1 := by omega
    rw [e] at h
    exact h.symm
  · have hlen : j < (set_adjoint (zero_adjoints tape.length tape.entries) start.index 1).length := by
      rw [length_set_adjoint, length_zero_adjoints]
      omega
    rw [sweep_iterations_adjoint_sum lc tape.entries start.index hordle _ hsame (start.index + 1)
      (le_refl _) j hlen, seeded_adjoint tape start hs hblock j (by omega)]
    congr 1
    have hrefl := Finset.sum_range_reflect
      (fun m => table_contribution lc (sweep_iterations lc (start.index + 1) (start.index + 1)
        (set_adjoint (zero_adjoints tape.length tape.entries) start.index 1)) m j)
      (start.index + 1)
    simp only [Nat.add_sub_cancel] at hrefl
    rw [hrefl]
    symm
    apply Finset.sum_subset
    · intro i hi
      simp only [Finset.mem_Ioc] at hi
      simp only [Finset.mem_range]
      omega
    · intro i hi hni
      simp only [Finset.mem_range] at hi
      simp only [Finset.mem_Ioc, not_and, not_le] at hni
      have hij : i ≤ j := by
        by_contra hc
        have := hni (by omega)
        omega
      have hsf := (same_fields_sweep_iterations lc (start.index + 1) (start.index + 1) _
        tape.entries hsame).2 i
      apply table_contribution_above lc _ i j hij
      · rw [hsf.2.2.2, hsf.2.1]
        exact (hordle i (by omega)).1
      · rw [hsf.2.2.2, hsf.2.2.1]
        exact (hordle i (by omega)).2

/-- C21 (witness): the tape of the leaf `2` and of its `NEG` node, once with zero adjoints and
once with the adjoints `7` and `9`: the pass from the `NEG` node leaves the same adjoint at the
leaf, and running it a second time leaves that adjoint again. -/
theorem reverse_pass_recomputes_adjoints_witness :
    same_fields
        [tape_entry_t.mk (2 : ℝ) 0 0 0 operator_t.NIL, tape_entry_t.mk (-2) 0 0 0 operator_t.NEG]
        [tape_entry_t.mk (2 : ℝ) 7 0 0 operator_t.NIL, tape_entry_t.mk (-2) 9 0 0 operator_t.NEG]
    ∧ ((entry_at (tape_reverse_pass
          (libc.mk Real.rpow Real.exp Real.cos Real.sin Real.sqrt Real.log tape_entry_zero (fun x => x / 0))
          (tape_t.mk 2 2 [tape_entry_t.mk (2 : ℝ) 0 0 0 operator_t.NIL,
            tape_entry_t.mk (-2) 0 0 0 operator_t.NEG])
          (var_t.mk 1)).entries 0).adjoint
        = (entry_at (tape_reverse_pass
          (libc.mk Real.rpow Real.exp Real.cos Real.sin Real.sqrt Real.log tape_entry_zero (fun x => x / 0))
          (tape_t.mk 2 2 [tape_entry_t.mk (2 : ℝ) 7 0 0 operator_t.NIL,
            tape_entry_t.mk (-2) 9 0 0 operator_t.NEG])
          (var_t.mk 1)).entries 0).adjoint
      ∧ (entry_at (tape_reverse_pass
          (libc.mk Real.rpow Real.exp Real.cos Real.sin Real.sqrt Real.log tape_entry_zero (fun x => x / 0))
          (tape_reverse_pass
            (libc.mk Real.rpow Real.exp Real.cos Real.sin Real.sqrt Real.log tape_entry_zero (fun x => x / 0))
            (tape_t.mk 2 2 [tape_entry_t.mk (2 : ℝ) 0 0 0 operator_t.NIL,
              tape_entry_t.mk (-2) 0 0 0 operator_t.NEG])
            (var_t.mk 1))
          (var_t.mk 1)).entries 0).adjoint
        = (entry_at (tape_reverse_pass
          (libc.mk Real.rpow Real.exp Real.cos Real.sin Real.sqrt Real.log tape_entry_zero (fun x => x / 0))
          (tape_t.mk 2 2 [tape_entry_t.mk (2 : ℝ) 0 0 0 operator_t.NIL,
            tape_entry_t.mk (-2) 0 0 0 operator_t.NEG])
          (var_t.mk 1)).entries 0).adjoint) := by
  have hf : same_fields
      [tape_entry_t.mk (2 : ℝ) 0 0 0 operator_t.NIL, tape_entry_t.mk (-2) 0 0 0 operator_t.NEG]
      [tape_entry_t.mk (2 : ℝ) 7 0 0 operator_t.NIL, tape_entry_t.mk (-2) 9 0 0 operator_t.NEG] := by
    refine ⟨rfl, fun j => ?_⟩
    rcases j with _ | _ | j <;> exact ⟨rfl, rfl, rfl, rfl⟩
  exact ⟨hf, reverse_pass_recomputes_adjoints _
    (tape_t.mk 2 2 [tape_entry_t.mk (2 : ℝ) 0 0 0 operator_t.NIL,
      tape_entry_t.mk (-2) 0 0 0 operator_t.NEG])
    (tape_t.mk 2 2 [tape_entry_t.mk (2 : ℝ) 7 0 0 operator_t.NIL,
      tape_entry_t.mk (-2) 9 0 0 operator_t.NEG])
    (var_t.mk 1) rfl hf (by decide) 0 (by decide)⟩

/-- C22 (witness): on the tape of the leaves `2`, `3` and of their product, the adjoint that
the pass from the product leaves at the first leaf is the sum of the contributions of the
nodes `1` and `2`. -/
theorem sweep_visits_node_after_consumers_witness :
    tape_ordered (tape_t.mk 3 3
        [tape_entry_t.mk (2 : ℝ) 0 0 0 operator_t.NIL, tape_entry_t.mk 3 0 0 0 operator_t.NIL,
          tape_entry_t.mk 6 0 0 1 operator_t.MUL])
    ∧ (entry_at (tape_reverse_pass
          (libc.mk Real.rpow Real.exp Real.cos Real.sin Real.sqrt Real.log tape_entry_zero (fun x => x / 0))
          (tape_t.mk 3 3
            [tape_entry_t.mk (2 : ℝ) 0 0 0 operator_t.NIL, tape_entry_t.mk 3 0 0 0 operator_t.NIL,
              tape_entry_t.mk 6 0 0 1 operator_t.MUL])
          (var_t.mk 2)).entries 0).adjoint
        = (if (0 : Nat) = 2 then 1 else 0)
          + (Finset.Ioc 0 2).sum (fun i => table_contribution
              (libc.mk Real.rpow Real.exp Real.cos Real.sin Real.sqrt Real.log tape_entry_zero (fun x => x / 0))
              (tape_reverse_pass
                (libc.mk Real.rpow Real.exp Real.cos Real.sin Real.sqrt Real.log tape_entry_zero (fun x => x / 0))
                (tape_t.mk 3 3
                  [tape_entry_t.mk (2 : ℝ) 0 0 0 operator_t.NIL,
                    tape_entry_t.mk 3 0 0 0 operator_t.NIL,
                    tape_entry_t.mk 6 0 0 1 operator_t.MUL])
                (var_t.mk 2)).entries i 0) :=
  ⟨by decide,
    (sweep_visits_node_after_consumers _ _ (var_t.mk 2) (by decide) (by decide) (by decide)
      (by decide) 0 (by decide)).2⟩

/-! ## The tape that the recorders leave -/

/-- The `assert` of `tape_extend`, reached through `var_create`: the call fails exactly on a
tape whose length has reached `MAX_TAPE_LENGTH`. -/
theorem var_create_fails_iff (lc : libc F) (g : tape_t F) (v : F) :
    var_create lc g v = none ↔ MAX_TAPE_LENGTH ≤ g.length := by
  constructor
  · intro h
    by_contra hc
    obtain ⟨r, hr⟩ := var_create_returns lc g v (by omega)
    rw [hr] at h
    cases h
  · intro h
    unfold var_create tape_extend
    rw [if_neg (by omega)]

/-- Any number of calls of `var_create` on a tape that is not full return, and leave the
length and the capacity of the active tape as they were. -/
theorem run_creates_returns (lc : libc F) (v : F) (n : Nat) (g : tape_t F)
    (hfree : g.length < MAX_TAPE_LENGTH) :
    ∃ r, run_calls lc g (List.replicate n (recorder_call.create v)) = some r
      ∧ r.2.length = g.length ∧ r.2.capacity = g.capacity := by
  induction n generalizing g with
  | zero => exact ⟨([], g), rfl, rfl, rfl⟩
  | succ n ih =>
    obtain ⟨r1, h1⟩ := var_create_returns lc g v hfree
    obtain ⟨-, k2, k3⟩ := var_create_keeps_struct lc g v r1 h1
    obtain ⟨r2, h2, m1, m2⟩ := ih r1.2 (by omega)
    refine ⟨(r1.1 :: r2.1, r2.2), ?_, by simp only; omega, by simp only; omega⟩
    simp only [List.replicate_succ, run_calls, run_call, h1, h2]

/-- On its own copy of the struct, `tape_extend` doubles a capacity of `16777215` that the
length has reached to `33554430`, above `MAX_TAPE_LENGTH`. -/
theorem tape_extend_doubles_beyond_limit (lc : libc F) (es : List (tape_entry_t F)) :
    (tape_extend lc { length := 16777215, capacity := 16777215, entries := es }).map
        (fun t => (t.length, t.capacity))
      = some (16777216, 33554430) := by
  have h : (16777215 : Nat) < 16777216 := by decide
  unfold tape_extend MAX_TAPE_LENGTH UINT32_RANGE
  rw [if_pos h, if_pos rfl]
  simp only [Option.map_some']

/-- C26 (the code at the failing input): on a tape created with capacity `64`, after
`x = var_create(1)` the length of the active tape is `0` and the entry at index `0`, which is
not below the length, holds the value `1`; after `y = -x` and `z = var_create(5)` the handle
`z` has index `0` and its node has the value `5` with the tag `NEG`, not the tag of a leaf. -/
theorem var_create_writes_beyond_length (lc : libc F) :
    (do
      let g0 ← tape_create 64
      let (x, g1) ← var_create lc (tape_load g0) 1
      let (_, g2) ← operator_neg lc g1 x
      let (z, g3) ← var_create lc g2 5
      pure (g1.length, g1.capacity, entry_at g1.entries 0, z.index, g3.length,
        entry_at g3.entries z.index))
    = some (0, 64, tape_entry_t.mk (1 : F) 0 0 0 operator_t.NIL, 0, 0,
        tape_entry_t.mk (5 : F) 0 0 0 operator_t.NEG) := by
  rfl

/-- C27 (the code at the failing input): for every accepted initial capacity `cap` and every
number `n`, the `n` calls of `var_create` that follow `tape_create(cap)` all return, and the
active tape has afterwards the length `0` and the capacity `cap`, at most `MAX_TAPE_LENGTH`:
no doubling reaches the active tape. -/
theorem capacity_stays_within_limit (lc : libc F) (cap n : Nat) (v : F)
    (hcap : cap ≤ MAX_TAPE_LENGTH) :
    ∃ g0 r, tape_create cap = some g0
      ∧ run_calls lc (tape_load g0) (List.replicate n (recorder_call.create v)) = some r
      ∧ r.2.length = 0 ∧ r.2.capacity = cap ∧ r.2.capacity ≤ MAX_TAPE_LENGTH := by
  obtain ⟨r, h, k1, k2⟩ := run_creates_returns lc v n
    (tape_load { length := 0, capacity := cap, entries := List.replicate cap tape_entry_zero })
    (by unfold tape_load MAX_TAPE_LENGTH; simp)
  refine ⟨_, r, ?_, h, k1, k2, ?_⟩
  · unfold tape_create
    rw [if_pos hcap]
  · rw [k2]
    exact hcap

/-- C27 (witness): after `tape_create(16777215)`, `16777216` calls of `var_create(0)` return
and leave the capacity `16777215` and the length `0`. -/
theorem capacity_stays_within_limit_witness :
    16777215 ≤ MAX_TAPE_LENGTH
    ∧ ∃ g0 r, tape_create 16777215 = some g0
      ∧ run_calls
          (libc.mk Real.rpow Real.exp Real.cos Real.sin Real.sqrt Real.log tape_entry_zero (fun x => x / 0))
          (tape_load g0) (List.replicate 16777216 (recorder_call.create (0 : ℝ))) = some r
      ∧ r.2.length = 0 ∧ r.2.capacity = 16777215 ∧ r.2.capacity ≤ MAX_TAPE_LENGTH :=
  ⟨by decide, capacity_stays_within_limit _ 16777215 16777216 0 (by decide)⟩

end Reverse

namespace Forward

variable {F : Type} [LinearOrderedField F] {n : Nat}

/-! ## Compound assignments and the operators -/

theorem compound_assignment_eq (op : arithmetic) (a : var_t n F) (b : operand n F) :
    compound_assignment op a b = binary_operator op a (b.read a) := by
  cases op <;>
    simp only [compound_assignment, binary_operator, operator_add_assign_eq,
      operator_sub_assign_eq, operator_mul_assign_eq, operator_div_assign_eq]

theorem float_assignment_eq (op : arithmetic) (a : var_t n F) (f : F) :
    float_assignment op a f = float_operator op a f := by
  cases op <;> rfl

/-- C28: each compound assignment of forward.h leaves in its left operand the variable that
the corresponding binary operator returns, also when both operands are the same variable
(`a += a`): `a += b`, `a -= b`, `a *= b` give `a + b`, `a - b`, `a * b`; `a /= b` fails when
`a / b` fails and gives `a / b` otherwise; `a += f`, `a -= f`, `a *= f` give `a + f`, `a - f`,
`a * f`; and `operator/=(f, b)` leaves `f / b` in `b`. -/
theorem compound_assignments_agree_with_operators (a : var_t n F) (b : operand n F) (f : F) :
    operator_add_assign a b = operator_add a (b.read a)
      ∧ operator_sub_assign a b = operator_sub a (b.read a)
      ∧ operator_mul_assign a b = operator_mul a (b.read a)
      ∧ operator_div_assign a b = operator_div a (b.read a)
      ∧ operator_add_assign_float a f = operator_add_float a f
      ∧ operator_sub_assign_float a f = operator_sub_float a f
      ∧ operator_mul_assign_float a f = operator_mul_float a f
      ∧ float_operator_div_assign f a = float_operator_div f a := by
  exact ⟨operator_add_assign_eq a b, operator_sub_assign_eq a b, operator_mul_assign_eq a b,
    operator_div_assign_eq a b, rfl, rfl, rfl, rfl⟩

/-! ## The product and quotient rules -/

/-- C24: for all variables `a`, `b` of forward.h, `a * b` has the value `a.value * b.value`
and the gradient `b.value * a.grad[i] + a.value * b.grad[i]` at every `i < GRADLEN`; `a / b`
fails when `b.value = 0`, and otherwise has the value `a.value / b.value` and the gradient
`(b.value * a.grad[i] - a.value * b.grad[i]) / (b.value * b.value)`; every `a.value`,
`a.grad[i]` on the right is the one of the operand before the operation. -/
theorem product_and_quotient_rules (a b : var_t n F) :
    (operator_mul a b).value = a.value * b.value
      ∧ (∀ i, (operator_mul a b).grad i = b.value * a.grad i + a.value * b.grad i)
      ∧ operator_div a b
          = if b.value = 0 then none
            else some
              { grad := fun i =>
                  (b.value * a.grad i - a.value * b.grad i) / (b.value * b.value),
                value := a.value / b.value } := by
  refine ⟨?_, ?_, ?_⟩
  · rw [operator_mul_eq]
  · intro i
    rw [operator_mul_eq]
  · rw [operator_div_eq]
    by_cases h : b.value = 0 <;> simp [h]

/-! ## Every operation acts on one component of the gradient at a time -/

theorem slice_operator_neg (c : Fin n) (a : var_t n F) :
    slice c (operator_neg a) = operator_neg (slice c a) := by
  rw [operator_neg_eq, operator_neg_eq]
  rfl

theorem slice_binary_operator (c : Fin n) (op : arithmetic) (a b : var_t n F) :
    (binary_operator op a b).map (slice c) = binary_operator op (slice c a) (slice c b) := by
  cases op
  · simp only [binary_operator, operator_add_eq, Option.map_some']
    rfl
  · simp only [binary_operator, operator_sub_eq, Option.map_some']
    rfl
  · simp only [binary_operator, operator_mul_eq, Option.map_some']
    rfl
  · simp only [binary_operator, operator_div_eq]
    by_cases h : b.value = 0
    · have h2 : (slice c b).value = 0 := h
      simp [h, h2]
    · have h2 : ¬ (slice c b).value = 0 := h
      simp only [ne_eq, h, h2, not_false_eq_true, if_true, Option.map_some']
      rfl

theorem slice_float_operator (c : Fin n) (op : arithmetic) (a : var_t n F) (f : F) :
    slice c (float_operator op a f) = float_operator op (slice c a) f := by
  cases op
  · rfl
  · rfl
  · simp only [float_operator, operator_mul_float_eq]
    rfl
  · simp only [float_operator, float_operator_div_eq]
    rfl

theorem slice_var_pow (lc : Reverse.libc F) (c : Fin n) (a : var_t n F) (f : F) :
    (var_pow lc a f).map (slice c) = var_pow lc (slice c a) f := by
  rw [var_pow_eq, var_pow_eq]
  by_cases h : 0 < a.value
  · have h2 : 0 < (slice c a).value := h
    simp only [h, h2, if_true, Option.map_some']
    rfl
  · have h2 : ¬ 0 < (slice c a).value := h
    simp [h, h2]

theorem slice_elementary_function (lc : Reverse.libc F) (c : Fin n) (fn : elementary)
    (a : var_t n F) :
    slice c (elementary_function lc fn a) = elementary_function lc fn (slice c a) := by
  cases fn
  · simp only [elementary_function, var_exp_eq]
    rfl
  · simp only [elementary_function, var_cos_eq]
    rfl
  · simp only [elementary_function, var_sin_eq]
    rfl
  · simp only [elementary_function, var_sqrt_eq]
    rfl

/-- The component `c` of the variable that an expression evaluates to is what the same
expression evaluates to, with `GRADLEN = 1`, on the components `c` of the entries of `P`. -/
theorem eval_slice (lc : Reverse.libc F) (P : Nat → var_t n F) (c : Fin n) (e : expr F) :
    (eval lc P e).map (slice c) = eval lc (fun k => slice c (P k)) e := by
  induction e with
  | input k => rfl
  | zero => rfl
  | neg a ih =>
    simp only [eval, ← ih]
    cases eval lc P a with
    | none => rfl
    | some x => simp only [Option.map_some', slice_operator_neg]
  | binary op a b iha ihb =>
    simp only [eval, ← iha, ← ihb]
    cases eval lc P a with
    | none => rfl
    | some x =>
      cases eval lc P b with
      | none => rfl
      | some y => simp only [Option.map_some', Option.some_bind, slice_binary_operator]
  | assign op a b iha ihb =>
    simp only [eval, ← iha, ← ihb, compound_assignment_eq, operand.read]
    cases eval lc P a with
    | none => rfl
    | some x =>
      cases eval lc P b with
      | none => rfl
      | some y => simp only [Option.map_some', Option.some_bind, slice_binary_operator]
  | assign_self op a ih =>
    simp only [eval, ← ih, compound_assignment_eq, operand.read]
    cases eval lc P a with
    | none => rfl
    | some x => simp only [Option.map_some', Option.some_bind, slice_binary_operator]
  | with_float op a f ih =>
    simp only [eval, ← ih]
    cases eval lc P a with
    | none => rfl
    | some x => simp only [Option.map_some', slice_float_operator]
  | assign_float op a f ih =>
    simp only [eval, ← ih, float_assignment_eq]
    cases eval lc P a with
    | none => rfl
    | some x => simp only [Option.map_some', slice_float_operator]
  | pow a f ih =>
    simp only [eval, ← ih]
    cases eval lc P a with
    | none => rfl
    | some x => simp only [Option.map_some', Option.some_bind, slice_var_pow]
  | function fn a ih =>
    simp only [eval, ← ih]
    cases eval lc P a with
    | none => rfl
    | some x => simp only [Option.map_some', slice_elementary_function]

/-- The component of input `i` in the array that `poly_init` seeds for a window containing
`i`: entry `k` has the value `k + 1` and the derivative `1` for `k = i`, `0` otherwise. -/
theorem slice_poly_init (s i k : Nat) (h1 : s ≤ i) (h2 : i < s + n) :
    slice (⟨i - s, by omega⟩ : Fin n) (poly_init (F := F) s (s + n) k)
      = { grad := fun _ => if k = i then 1 else 0, value := (k : F) + 1 } := by
  unfold slice poly_init
  simp only [var_t.mk.injEq, and_true]
  funext _
  by_cases hk : k = i
  · subst hk
    simp [h1, h2]
  · have : ¬ (s ≤ k ∧ k < s + n ∧ i - s = k - s) := by omega
    simp [hk, this]

/-- C23: every operation of forward.h acts on one component of the gradient at a time: the
value and `grad[c]` of the variable that an expression evaluates to are what the expression
evaluates to with `GRADLEN = 1` on the values and the `grad[c]` of the entries of `P`, and the
evaluation fails in the same cases.  Hence, with the array seeded by `poly_init` for a window
`[s, s + GRADLEN)` that contains the input `i`, the value and the derivative for input `i`,
read at position `i - s`, are the same as for any other window `[s2, s2 + n2)` that contains
`i`. -/
theorem forward_acts_componentwise (lc : Reverse.libc F) (n2 : Nat) (e : expr F)
    (s s2 i : Nat) (h1 : s ≤ i) (h2 : i < s + n) (h3 : s2 ≤ i) (h4 : i < s2 + n2) :
    (∀ (P : Nat → var_t n F) (c : Fin n),
        (eval lc P e).map (slice c) = eval lc (fun k => slice c (P k)) e)
      ∧ (eval lc (poly_init s (s + n)) e).map (slice (⟨i - s, by omega⟩ : Fin n))
          = (eval lc (poly_init s2 (s2 + n2)) e).map (slice (⟨i - s2, by omega⟩ : Fin n2)) := by
  refine ⟨fun P c => eval_slice lc P c e, ?_⟩
  rw [eval_slice, eval_slice]
  congr 1
  funext k
  rw [slice_poly_init s i k h1 h2, slice_poly_init s2 i k h3 h4]

/-- C23 (witness): for the expression `P[4] * P[1]`, the window `[0, 8)` with `GRADLEN = 8`
read at position `4` and the window `[3, 5)` with `GRADLEN = 2` read at position `1` give the
same value and the same derivative for input `4`. -/
theorem forward_acts_componentwise_witness :
    (0 ≤ 4 ∧ 4 < 0 + 8 ∧ 3 ≤ 4 ∧ 4 < 3 + 2)
    ∧ (eval
          (Reverse.libc.mk Real.rpow Real.exp Real.cos Real.sin Real.sqrt Real.log
            Reverse.tape_entry_zero (fun x => x / 0))
          (poly_init 0 (0 + 8))
          (expr.binary arithmetic.mul (expr.input 4) (expr.input 1))).map
        (slice (⟨4 - 0, by omega⟩ : Fin 8))
      = (eval
          (Reverse.libc.mk Real.rpow Real.exp Real.cos Real.sin Real.sqrt Real.log
            Reverse.tape_entry_zero (fun x => x / 0))
          (poly_init 3 (3 + 2))
          (expr.binary arithmetic.mul (expr.input 4) (expr.input 1))).map
        (slice (⟨4 - 3, by omega⟩ : Fin 2)) :=
  ⟨by decide,
    (forward_acts_componentwise (n := 8) _ 2 _ 0 3 4 (by decide) (by decide) (by decide)
      (by decide)).2⟩

end Forward
